import Mathlib

/-!
Verification of `weed/filer/reader_at.go` (chunked random-access reader of
seaweedfs): a shallow embedding of the data model and the operations of that
file, followed by theorems about the claims of the specification.

Modelling conventions:
* Go `int`/`int64` arithmetic is modelled by `Int` (no overflow is reachable at
  the sizes involved; Go ints are 64-bit here and the code never wraps).
* Byte buffers are `List Int` (the byte values themselves are never inspected).
* A Go slice expression `s[a:b]` panics when its bounds are invalid; the
  embedding returns `none` in that case.  Calling a method on a nil
  `chunk_cache.ChunkCache` interface also panics; the embedding reports it
  with `FetchRes.nilCacheFault`.
* External collaborators (the wire fetch `fetchChunk`, the volume-lookup RPC
  with its retry wrapper `util.Retry`, `filerClient.AdjustedUrl`, the fileId
  to volume-id parsing rule `VolumeId`) are taken as function parameters.
* `singleflight.Group.Do` and the `readerLock` mutex are the identity in this
  sequential embedding; the `go` statement that launches the read-ahead is
  recorded by the id it would fetch (`spawned`) and has no synchronous effect.
-/

namespace ReaderAt

abbrev Bytes := List Int

/-- Modelled from the spec: the `ChunkView` struct of the filer package is not
part of the given source file; its fields are taken from the spec's "Chunk
View" data model and from their uses in `reader_at.go` (`chunk.FileId`,
`chunk.Offset`, `chunk.Size`, `chunk.LogicOffset`, `chunkView.ChunkSize`). -/
structure ChunkView where
  FileId : String
  Offset : Int
  Size : Nat
  LogicOffset : Int
  ChunkSize : Nat
deriving DecidableEq, Repr

/-- State of one `ChunkReadAt` value.  `vidCache` is the fresh map allocated by
`LookupFn` for this reader (the closure stored in `lookupFileId`); `chunkCache
= none` models a nil `chunk_cache.ChunkCache` interface. -/
structure ChunkReadAt where
  chunkViews : List ChunkView
  fileSize : Int
  lastChunkFileId : String
  lastChunkData : Bytes
  chunkCache : Option (List (String × Bytes))
  vidCache : List (String × List String)
deriving DecidableEq, Repr

/-- Go map lookup for the string-keyed caches. -/
def assocGet {α : Type} (l : List (String × α)) (k : String) : Option α :=
  match l.find? (fun e => e.1 == k) with
  | some e => some e.2
  | none => none

/-- `NewChunkReaderAtFromClient`: each construction calls `LookupFn`, which
allocates a brand-new empty `vidCache` map for this reader; the remaining
fields start at their Go zero values. -/
def NewChunkReaderAtFromClient (chunkViews : List ChunkView)
    (chunkCache : Option (List (String × Bytes))) (fileSize : Int) : ChunkReadAt :=
  { chunkViews := chunkViews
    fileSize := fileSize
    lastChunkFileId := ""
    lastChunkData := []
    chunkCache := chunkCache
    vidCache := [] }

/-- Result of obtaining whole-chunk bytes. `nilCacheFault` models the Go panic
from calling `GetChunk`/`SetChunk` on a nil cache interface. -/
inductive FetchRes where
  | ok (data : Bytes)
  | fail (msg : String)
  | nilCacheFault
deriving DecidableEq, Repr

/-- `doFetchFullChunkData`: the wire fetch collaborator (`fetchChunk` with the
view's cipher key and gzip flag) keyed by the chunk's file id. -/
def doFetchFullChunkData (fetchChunk : String → Except String Bytes)
    (chunkView : ChunkView) : Except String Bytes :=
  fetchChunk chunkView.FileId

/-- `readOneWholeChunk`: the body passed to `fetchGroup.Do` (identity in this
sequential embedding): consult the content cache, on a miss run the wire fetch
and store the result.  The cache accesses are unconditional: a nil cache
interface faults. -/
def readOneWholeChunk (fetchChunk : String → Except String Bytes)
    (c : ChunkReadAt) (chunkView : ChunkView) : FetchRes × ChunkReadAt :=
  match c.chunkCache with
  | none => (.nilCacheFault, c)
  | some cc =>
    match assocGet cc chunkView.FileId with
    | some data => (.ok data, c)
    | none =>
      match doFetchFullChunkData fetchChunk chunkView with
      | .error e => (.fail e, c)
      | .ok data =>
        (.ok data, { c with chunkCache := some ((chunkView.FileId, data) :: cc) })

/-- `readFromWholeChunkData`: recency-slot short circuit, then the coordinator
(`readOneWholeChunk`); on success the slot is overwritten and a read-ahead of
the next view is launched when a cache is configured.  Results: the fetch
outcome, the updated reader, how many coordinator calls were made
synchronously, and the ids handed to background read-ahead. -/
def readFromWholeChunkData (fetchChunk : String → Except String Bytes)
    (c : ChunkReadAt) (chunkView : ChunkView) (nextChunkView : Option ChunkView) :
    FetchRes × ChunkReadAt × Nat × List String :=
  if c.lastChunkFileId = chunkView.FileId then
    (.ok c.lastChunkData, c, 0, [])
  else
    match readOneWholeChunk fetchChunk c chunkView with
    | (.nilCacheFault, c') => (.nilCacheFault, c', 1, [])
    | (.fail e, c') => (.fail e, c', 1, [])
    | (.ok data, c') =>
      let c'' := { c' with lastChunkData := data, lastChunkFileId := chunkView.FileId }
      let spawned :=
        match nextChunkView with
        | some nv => if c''.chunkCache.isSome then [nv.FileId] else []
        | none => []
      (.ok data, c'', 1, spawned)

/-- Cursor state of the `doReadAt` walk (`n`, `startOffset`, `remaining`, the
mutated output buffer `p`, the receiver `c`, plus the instrumentation
counters). -/
structure LoopState where
  p : Bytes
  n : Int
  startOffset : Int
  remaining : Int
  c : ChunkReadAt
  coordCalls : Nat
deriving DecidableEq, Repr

/-- The gap branch of `doReadAt`: when the cursor is before the view, count
`min(gap, remaining)` zero bytes into `n` and advance the cursor past the gap
(the buffer itself is not written). -/
def gapAdjust (chunk : ChunkView) (st : LoopState) : LoopState :=
  if st.startOffset < chunk.LogicOffset then
    { st with
      n := st.n + min (chunk.LogicOffset - st.startOffset) st.remaining
      startOffset := chunk.LogicOffset
      remaining := st.remaining - (chunk.LogicOffset - st.startOffset) }
  else st

/-- Validity of a Go slice expression `s[lo:hi]` over a sequence of length
`len`; outside these bounds Go panics. -/
def sliceOK (lo hi len : Int) : Prop := 0 ≤ lo ∧ lo ≤ hi ∧ hi ≤ len

instance (lo hi len : Int) : Decidable (sliceOK lo hi len) := by
  unfold sliceOK; exact inferInstance

/-- `copy(p[a:...], seg)` for an in-bounds destination: overwrite
`p[a .. a+len(seg))` with `seg`. -/
def copyInto (p : Bytes) (a : Nat) (seg : Bytes) : Bytes :=
  p.take a ++ seg ++ p.drop (a + seg.length)

/-- Control-flow outcome of one iteration of the `doReadAt` loop: `brk`
corresponds to `break`, `next` to falling through / `continue`, `errStop` to
the `return` on a fetch error, `fault` to a Go panic (slice out of range or
nil cache). -/
inductive StepRes where
  | brk (st : LoopState)
  | next (st : LoopState)
  | errStop (st : LoopState) (e : String)
  | fault
deriving DecidableEq, Repr

/-- One iteration of the `for i, chunk := range c.chunkViews` loop body of
`doReadAt`: the `remaining <= 0` break, the gap branch with its break, the
intersection `[chunkStart, chunkStop)` with the `continue` when empty, the
fetch through `readFromWholeChunkData` with the error return, and the
bounds-checked `copy` with the cursor advance. -/
def loopStep (fetchChunk : String → Except String Bytes) (offset : Int)
    (chunk : ChunkView) (nextChunk : Option ChunkView) (st : LoopState) : StepRes :=
  if st.remaining ≤ 0 then .brk st
  else
    let st1 := gapAdjust chunk st
    if st1.remaining ≤ 0 then .brk st1
    else
      let chunkStart := max chunk.LogicOffset st1.startOffset
      let chunkStop := min (chunk.LogicOffset + (chunk.Size : Int)) (st1.startOffset + st1.remaining)
      if chunkStop ≤ chunkStart then .next st1
      else
        match readFromWholeChunkData fetchChunk st1.c chunk nextChunk with
        | (.nilCacheFault, _, _, _) => .fault
        | (.fail e, c', k, _) =>
          .errStop { st1 with c := c', coordCalls := st1.coordCalls + k } e
        | (.ok buffer, c', k, _) =>
          let bufferOffset := chunkStart - chunk.LogicOffset + chunk.Offset
          let a := st1.startOffset - offset
          let b := chunkStop - chunkStart + st1.startOffset - offset
          if sliceOK a b st1.p.length ∧
             sliceOK bufferOffset (bufferOffset + chunkStop - chunkStart) buffer.length then
            let seg := (buffer.drop bufferOffset.toNat).take (chunkStop - chunkStart).toNat
            let copied : Int := chunkStop - chunkStart
            .next
              { p := copyInto st1.p a.toNat seg
                n := st1.n + copied
                startOffset := st1.startOffset + copied
                remaining := st1.remaining - copied
                c := c'
                coordCalls := st1.coordCalls + k }
          else .fault

/-- The `for i, chunk := range c.chunkViews` loop of `doReadAt`.  Returns
`none` on a Go panic, otherwise the final cursor state and the error from a
failed fetch (Go returns from inside the loop in that case); a `break` ends
the walk for the remaining views as well. -/
def doReadAtLoop (fetchChunk : String → Except String Bytes) (offset : Int) :
    List ChunkView → LoopState → Option (LoopState × Option String)
  | [], st => some (st, none)
  | chunk :: rest, st =>
    match loopStep fetchChunk offset chunk rest.head? st with
    | .brk st' => some (st', none)
    | .next st' => doReadAtLoop fetchChunk offset rest st'
    | .errStop st' e => some (st', some e)
    | .fault => none

/-- Errors surfaced by `doReadAt`: `io.EOF` or a chunk fetch failure. -/
inductive ReadErr where
  | eof
  | fetchFail (msg : String)
deriving DecidableEq, Repr

/-- Whether an error value is a resolve/fetch failure (as opposed to nil or
`io.EOF`). -/
def isFetchFail : Option ReadErr → Bool
  | some (ReadErr.fetchFail _) => true
  | _ => false

/-- Observable outcome of one `doReadAt` call. -/
structure ReadResult where
  p : Bytes
  n : Int
  err : Option ReadErr
  c : ChunkReadAt
  coordCalls : Nat
deriving DecidableEq, Repr

/-- Initial cursor of a `doReadAt` call. -/
def initLoopState (c : ChunkReadAt) (p : Bytes) (offset : Int) : LoopState :=
  { p := p, n := 0, startOffset := offset, remaining := (p.length : Int),
    c := c, coordCalls := 0 }

/-- `doReadAt`: walk the views, then the trailing zero-fill accounting bounded
by the file size, then the end-of-file determination. -/
def doReadAt (fetchChunk : String → Except String Bytes) (c : ChunkReadAt)
    (p : Bytes) (offset : Int) : Option ReadResult :=
  match doReadAtLoop fetchChunk offset c.chunkViews (initLoopState c p offset) with
  | none => none
  | some (st, some e) =>
    some { p := st.p, n := st.n, err := some (.fetchFail e), c := st.c,
           coordCalls := st.coordCalls }
  | some (st, none) =>
    let n1 := if 0 < st.remaining ∧ st.startOffset < st.c.fileSize
              then st.n + min st.remaining (st.c.fileSize - st.startOffset)
              else st.n
    let err := if st.c.fileSize ≤ offset + (p.length : Int)
               then some ReadErr.eof else none
    some { p := st.p, n := n1, err := err, c := st.c,
           coordCalls := st.coordCalls }

/-- `ReadAt`: takes the reader lock (identity here) and calls
`doReadAt(p[n:], offset+int64(n))` with the named return `n` still `0`. -/
def ReadAt (fetchChunk : String → Except String Bytes) (c : ChunkReadAt)
    (p : Bytes) (offset : Int) : Option ReadResult :=
  doReadAt fetchChunk c p offset

/-- The collaborators captured by `LookupFn`: the fileId-to-volume parsing rule
(`VolumeId`, external to this file), `filerClient.AdjustedUrl`, and the
`LookupVolume` RPC already wrapped in its `util.Retry` policy (both external).
`lookupVolume` returns the location list of the volume or the final error. -/
structure FilerClient where
  VolumeId : String → String
  AdjustedUrl : String → String
  lookupVolume : String → Except String (List String)

/-- The URL-construction loop of `LookupFn`: one
`http://<adjusted-address>/<fileId>` per resolved location, in order. -/
def mkTargetUrls (fc : FilerClient) (fileId : String) (locations : List String) :
    List String :=
  locations.map (fun loc => "http://" ++ fc.AdjustedUrl loc ++ "/" ++ fileId)

/-- Go's parallel assignment `a[i], a[j] = a[j], a[i]`; indices that are out of
range leave the list unchanged (the shuffle below only uses in-range ones). -/
def listSwap {α : Type} (l : List α) (i j : Nat) : List α :=
  if h : i < l.length ∧ j < l.length then
    (l.set i (l.get ⟨j, h.2⟩)).set j (l.get ⟨i, h.1⟩)
  else l

/-- The Fisher-Yates loop of `LookupFn`
(`for i := len-1; i > 0; i--; j := rand.Intn(i+1); swap i j`), with the
successive random draws supplied as the list `cs`: the head of `cs` is the
draw for `i = cs.length`, the next for `i = cs.length - 1`, and so on. -/
def fySwaps {α : Type} (l : List α) : List Nat → List α
  | [] => l
  | j :: rest => fySwaps (listSwap l (rest.length + 1) j) rest

/-- A draw list is valid when every draw is in the range `rand.Intn(i+1)`
produces, i.e. `0 ≤ j ≤ i` for its iteration `i`. -/
def FYValid : List Nat → Prop
  | [] => True
  | j :: rest => j ≤ rest.length + 1 ∧ FYValid rest

instance FYValidDec : (cs : List Nat) → Decidable (FYValid cs)
  | [] => isTrue trivial
  | _ :: rest => by
    unfold FYValid
    have := FYValidDec rest
    exact instDecidableAnd

/-- The closure returned by `LookupFn`, acting on the reader's `vidCache`:
volume-cache lookup, on a miss the retried remote lookup (empty location lists
are an error and nothing is cached on failure), then URL construction and the
Fisher-Yates shuffle with draws `cs`.  The third component records whether the
remote lookup was performed. -/
def lookupFileId (fc : FilerClient) (cache : List (String × List String))
    (fileId : String) (cs : List Nat) :
    Except String (List String) × List (String × List String) × Bool :=
  let vid := fc.VolumeId fileId
  match assocGet cache vid with
  | some locations =>
    (.ok (fySwaps (mkTargetUrls fc fileId locations) cs), cache, false)
  | none =>
    match fc.lookupVolume vid with
    | .error e => (.error e, cache, true)
    | .ok locations =>
      if locations.length = 0 then
        (.error ("failed to locate " ++ fileId), cache, true)
      else
        (.ok (fySwaps (mkTargetUrls fc fileId locations) cs),
         (vid, locations) :: cache, true)

/-- The chunk-view list invariant of the spec's data model: ordered ascending
by logical offset and pairwise non-overlapping, i.e. each view ends at or
before the next one starts. -/
def ViewsOrdered (vs : List ChunkView) : Prop :=
  List.Chain' (fun a b => a.LogicOffset + (a.Size : Int) ≤ b.LogicOffset) vs

/-- Every way the reader can obtain whole-chunk bytes for the view `v`
(recency slot, content cache, wire fetch) yields at least `Offset + Size`
bytes — the precondition under which the source slice of the copy in
`doReadAt` is in bounds. -/
def SourceAdequate (fetchChunk : String → Except String Bytes)
    (c : ChunkReadAt) (v : ChunkView) : Prop :=
  (c.lastChunkFileId = v.FileId →
    v.Offset + (v.Size : Int) ≤ (c.lastChunkData.length : Int)) ∧
  (∀ cc, c.chunkCache = some cc → ∀ d, assocGet cc v.FileId = some d →
    v.Offset + (v.Size : Int) ≤ (d.length : Int)) ∧
  (∀ d, fetchChunk v.FileId = .ok d →
    v.Offset + (v.Size : Int) ≤ (d.length : Int))

/-- `SourceAdequate` for every view of a list. -/
def SourcesAdequate (fetchChunk : String → Except String Bytes)
    (c : ChunkReadAt) (vs : List ChunkView) : Prop :=
  ∀ v ∈ vs, SourceAdequate fetchChunk c v

/-- The arithmetic invariant of the `doReadAt` walk over a buffer of original
length `p0`: `n` counts written-or-zero-counted bytes, the cursor position
matches `offset + n` while bytes remain, and the buffer keeps its length. -/
def WalkInv (offset : Int) (p0 : Nat) (st : LoopState) : Prop :=
  0 ≤ st.n ∧ st.n ≤ (p0 : Int) ∧ st.p.length = p0 ∧
  (0 < st.remaining → st.n + st.remaining = (p0 : Int) ∧ st.startOffset - offset = st.n)

/-- The parts of a cursor state the loop never changes: the reader's
configuration (`fileSize`, `chunkViews`, `vidCache`, whether a content cache
is present) and the length of the output buffer. -/
def StatePres (st st' : LoopState) : Prop :=
  st'.c.fileSize = st.c.fileSize ∧
  st'.c.chunkViews = st.c.chunkViews ∧
  st'.c.chunkCache.isSome = st.c.chunkCache.isSome ∧
  st'.c.vidCache = st.c.vidCache ∧
  st'.p.length = st.p.length

/-! ## Theorems -/

theorem statePres_refl (st : LoopState) : StatePres st st :=
  ⟨rfl, rfl, rfl, rfl, rfl⟩

theorem statePres_trans {s1 s2 s3 : LoopState} (h1 : StatePres s1 s2)
    (h2 : StatePres s2 s3) : StatePres s1 s3 :=
  ⟨h2.1.trans h1.1, h2.2.1.trans h1.2.1, h2.2.2.1.trans h1.2.2.1,
   h2.2.2.2.1.trans h1.2.2.2.1, h2.2.2.2.2.trans h1.2.2.2.2⟩

theorem copyInto_length (p : Bytes) (a : Nat) (seg : Bytes)
    (h : a + seg.length ≤ p.length) : (copyInto p a seg).length = p.length := by
  unfold copyInto
  simp only [List.length_append, List.length_take, List.length_drop]
  omega

theorem readOneWholeChunk_config (f : String → Except String Bytes)
    (c : ChunkReadAt) (v : ChunkView) :
    ((readOneWholeChunk f c v).2).fileSize = c.fileSize ∧
    ((readOneWholeChunk f c v).2).chunkViews = c.chunkViews ∧
    ((readOneWholeChunk f c v).2).lastChunkFileId = c.lastChunkFileId ∧
    ((readOneWholeChunk f c v).2).lastChunkData = c.lastChunkData ∧
    ((readOneWholeChunk f c v).2).chunkCache.isSome = c.chunkCache.isSome ∧
    ((readOneWholeChunk f c v).2).vidCache = c.vidCache := by
  unfold readOneWholeChunk
  rcases hc : c.chunkCache with _ | cc
  · simp [hc]
  · rcases hg : assocGet cc v.FileId with _ | d
    · rcases hf : doFetchFullChunkData f v with e | d
      · simp [hc, hg, hf]
      · simp [hc, hg, hf]
    · simp [hc, hg]

theorem readFromWholeChunkData_config (f : String → Except String Bytes)
    (c : ChunkReadAt) (v : ChunkView) (next : Option ChunkView) :
    ((readFromWholeChunkData f c v next).2.1).fileSize = c.fileSize ∧
    ((readFromWholeChunkData f c v next).2.1).chunkViews = c.chunkViews ∧
    ((readFromWholeChunkData f c v next).2.1).chunkCache.isSome = c.chunkCache.isSome ∧
    ((readFromWholeChunkData f c v next).2.1).vidCache = c.vidCache := by
  unfold readFromWholeChunkData
  by_cases hs : c.lastChunkFileId = v.FileId
  · simp [hs]
  · have hcfg := readOneWholeChunk_config f c v
    rcases hr : readOneWholeChunk f c v with ⟨res, c'⟩
    rw [hr] at hcfg
    cases res <;>
      simp_all

theorem gapAdjust_pres (chunk : ChunkView) (st : LoopState) :
    StatePres st (gapAdjust chunk st) := by
  unfold gapAdjust StatePres
  split <;> simp

theorem loopStep_pres (f : String → Except String Bytes) (off : Int) (chunk : ChunkView)
    (next : Option ChunkView) (st : LoopState) :
    ∀ r, loopStep f off chunk next st = r →
      match r with
      | .fault => True
      | .brk st' => StatePres st st'
      | .next st' => StatePres st st'
      | .errStop st' _ => StatePres st st' := by
  intro r h
  have hgap := gapAdjust_pres chunk st
  unfold loopStep at h
  by_cases h1 : st.remaining ≤ 0
  · simp only [if_pos h1] at h
    subst h
    exact statePres_refl st
  · simp only [if_neg h1] at h
    by_cases h2 : (gapAdjust chunk st).remaining ≤ 0
    · simp only [if_pos h2] at h
      subst h
      exact hgap
    · simp only [if_neg h2] at h
      by_cases h3 : min (chunk.LogicOffset + (chunk.Size : Int))
          ((gapAdjust chunk st).startOffset + (gapAdjust chunk st).remaining) ≤
          max chunk.LogicOffset (gapAdjust chunk st).startOffset
      · simp only [if_pos h3] at h
        subst h
        exact hgap
      · simp only [if_neg h3] at h
        have hcfg := readFromWholeChunkData_config f (gapAdjust chunk st).c chunk next
        rcases hr : readFromWholeChunkData f (gapAdjust chunk st).c chunk next with ⟨res, c', k, sp⟩
        rw [hr] at h hcfg
        dsimp only at hcfg
        cases res with
        | nilCacheFault =>
          subst h
          trivial
        | fail e =>
          dsimp only at h
          subst h
          exact statePres_trans hgap ⟨hcfg.1, hcfg.2.1, hcfg.2.2.1, hcfg.2.2.2, rfl⟩
        | ok buffer =>
          dsimp only at h
          rw [ite_eq_iff] at h
          rcases h with ⟨hok, h⟩ | ⟨_, h⟩
          · subst h
            refine statePres_trans hgap ⟨hcfg.1, hcfg.2.1, hcfg.2.2.1, hcfg.2.2.2, ?_⟩
            obtain ⟨⟨hd1, hd2, hd3⟩, ⟨hs1, hs2, hs3⟩⟩ := hok
            apply copyInto_length
            have hseg : ((buffer.drop (max chunk.LogicOffset (gapAdjust chunk st).startOffset -
                chunk.LogicOffset + chunk.Offset).toNat).take
                (min (chunk.LogicOffset + (chunk.Size : Int))
                  ((gapAdjust chunk st).startOffset + (gapAdjust chunk st).remaining) -
                 max chunk.LogicOffset (gapAdjust chunk st).startOffset).toNat).length =
                (min (chunk.LogicOffset + (chunk.Size : Int))
                  ((gapAdjust chunk st).startOffset + (gapAdjust chunk st).remaining) -
                 max chunk.LogicOffset (gapAdjust chunk st).startOffset).toNat := by
              simp only [List.length_take, List.length_drop]
              omega
            rw [hseg]
            omega
          · subst h
            trivial

theorem doReadAtLoop_cons_brk (f : String → Except String Bytes) (off : Int)
    (chunk : ChunkView) (rest : List ChunkView) (st st2 : LoopState)
    (h : loopStep f off chunk rest.head? st = .brk st2) :
    doReadAtLoop f off (chunk :: rest) st = some (st2, none) := by
  unfold doReadAtLoop
  rw [h]

theorem doReadAtLoop_cons_next (f : String → Except String Bytes) (off : Int)
    (chunk : ChunkView) (rest : List ChunkView) (st st2 : LoopState)
    (h : loopStep f off chunk rest.head? st = .next st2) :
    doReadAtLoop f off (chunk :: rest) st = doReadAtLoop f off rest st2 := by
  conv_lhs => unfold doReadAtLoop
  rw [h]

theorem doReadAtLoop_cons_err (f : String → Except String Bytes) (off : Int)
    (chunk : ChunkView) (rest : List ChunkView) (st st2 : LoopState) (e : String)
    (h : loopStep f off chunk rest.head? st = .errStop st2 e) :
    doReadAtLoop f off (chunk :: rest) st = some (st2, some e) := by
  unfold doReadAtLoop
  rw [h]

theorem doReadAtLoop_cons_fault (f : String → Except String Bytes) (off : Int)
    (chunk : ChunkView) (rest : List ChunkView) (st : LoopState)
    (h : loopStep f off chunk rest.head? st = .fault) :
    doReadAtLoop f off (chunk :: rest) st = none := by
  unfold doReadAtLoop
  rw [h]

theorem doReadAtLoop_nonpos (f : String → Except String Bytes) (off : Int) :
    ∀ (vs : List ChunkView) (st : LoopState), st.remaining ≤ 0 →
      doReadAtLoop f off vs st = some (st, none)
  | [], _, _ => rfl
  | chunk :: rest, st, h => by
    apply doReadAtLoop_cons_brk
    unfold loopStep
    rw [if_pos h]

theorem doReadAtLoop_pres (f : String → Except String Bytes) (off : Int) :
    ∀ (vs : List ChunkView) (st st' : LoopState) (e : Option String),
      doReadAtLoop f off vs st = some (st', e) → StatePres st st'
  | [], st, st', e, h => by
    unfold doReadAtLoop at h
    cases h
    exact statePres_refl st
  | chunk :: rest, st, st', e, h => by
    cases hs : loopStep f off chunk rest.head? st with
    | brk st2 =>
      rw [doReadAtLoop_cons_brk f off chunk rest st st2 hs] at h
      cases h
      exact loopStep_pres f off chunk rest.head? st _ hs
    | next st2 =>
      rw [doReadAtLoop_cons_next f off chunk rest st st2 hs] at h
      exact statePres_trans (loopStep_pres f off chunk rest.head? st _ hs)
        (doReadAtLoop_pres f off rest st2 st' e h)
    | errStop st2 e2 =>
      rw [doReadAtLoop_cons_err f off chunk rest st st2 e2 hs] at h
      cases h
      exact loopStep_pres f off chunk rest.head? st _ hs
    | fault =>
      rw [doReadAtLoop_cons_fault f off chunk rest st hs] at h
      cases h

theorem readFromWholeChunkData_next_irrel (f : String → Except String Bytes)
    (c : ChunkReadAt) (v : ChunkView) (n1 n2 : Option ChunkView) :
    ((readFromWholeChunkData f c v n1).1, (readFromWholeChunkData f c v n1).2.1,
      (readFromWholeChunkData f c v n1).2.2.1) =
    ((readFromWholeChunkData f c v n2).1, (readFromWholeChunkData f c v n2).2.1,
      (readFromWholeChunkData f c v n2).2.2.1) := by
  unfold readFromWholeChunkData
  split
  · rfl
  · rcases hr : readOneWholeChunk f c v with ⟨res, c'⟩
    cases res <;> rfl

theorem loopStep_next_irrel (f : String → Except String Bytes) (off : Int)
    (chunk : ChunkView) (st : LoopState) (n1 n2 : Option ChunkView) :
    loopStep f off chunk n1 st = loopStep f off chunk n2 st := by
  unfold loopStep
  by_cases h1 : st.remaining ≤ 0
  · simp only [if_pos h1]
  · simp only [if_neg h1]
    by_cases h2 : (gapAdjust chunk st).remaining ≤ 0
    · simp only [if_pos h2]
    · simp only [if_neg h2]
      by_cases h3 : min (chunk.LogicOffset + (chunk.Size : Int))
          ((gapAdjust chunk st).startOffset + (gapAdjust chunk st).remaining) ≤
          max chunk.LogicOffset (gapAdjust chunk st).startOffset
      · simp only [if_pos h3]
      · simp only [if_neg h3]
        have hirr := readFromWholeChunkData_next_irrel f (gapAdjust chunk st).c chunk n1 n2
        rcases hr1 : readFromWholeChunkData f (gapAdjust chunk st).c chunk n1 with ⟨r1, c1, k1, s1⟩
        rcases hr2 : readFromWholeChunkData f (gapAdjust chunk st).c chunk n2 with ⟨r2, c2, k2, s2⟩
        rw [hr1, hr2] at hirr
        simp only [Prod.mk.injEq] at hirr
        obtain ⟨he1, he2, he3⟩ := hirr
        subst he1
        subst he2
        subst he3
        cases r1 <;> rfl

theorem loopStep_brk_nonpos (f : String → Except String Bytes) (off : Int)
    (chunk : ChunkView) (next : Option ChunkView) (st st' : LoopState)
    (h : loopStep f off chunk next st = .brk st') : st'.remaining ≤ 0 := by
  unfold loopStep at h
  by_cases h1 : st.remaining ≤ 0
  · simp only [if_pos h1] at h
    cases h
    exact h1
  · simp only [if_neg h1] at h
    by_cases h2 : (gapAdjust chunk st).remaining ≤ 0
    · simp only [if_pos h2] at h
      cases h
      exact h2
    · simp only [if_neg h2] at h
      by_cases h3 : min (chunk.LogicOffset + (chunk.Size : Int))
          ((gapAdjust chunk st).startOffset + (gapAdjust chunk st).remaining) ≤
          max chunk.LogicOffset (gapAdjust chunk st).startOffset
      · simp only [if_pos h3] at h
        simp at h
      · simp only [if_neg h3] at h
        rcases hr : readFromWholeChunkData f (gapAdjust chunk st).c chunk next with ⟨res, c', k, sp⟩
        rw [hr] at h
        cases res with
        | nilCacheFault => simp at h
        | fail e => simp at h
        | ok buffer =>
          dsimp only at h
          rw [ite_eq_iff] at h
          rcases h with ⟨_, h⟩ | ⟨_, h⟩ <;> simp at h

theorem doReadAtLoop_append (f : String → Except String Bytes) (off : Int) :
    ∀ (l1 l2 : List ChunkView) (st : LoopState),
      doReadAtLoop f off (l1 ++ l2) st =
        match doReadAtLoop f off l1 st with
        | none => none
        | some (st', some e) => some (st', some e)
        | some (st', none) => doReadAtLoop f off l2 st'
  | [], l2, st => rfl
  | chunk :: l1, l2, st => by
    have hnext := loopStep_next_irrel f off chunk st (l1 ++ l2).head? l1.head?
    show doReadAtLoop f off (chunk :: (l1 ++ l2)) st = _
    cases hs : loopStep f off chunk l1.head? st with
    | brk st2 =>
      rw [doReadAtLoop_cons_brk f off chunk (l1 ++ l2) st st2 (hnext.trans hs),
          doReadAtLoop_cons_brk f off chunk l1 st st2 hs]
      exact (doReadAtLoop_nonpos f off l2 st2
        (loopStep_brk_nonpos f off chunk l1.head? st st2 hs)).symm
    | next st2 =>
      rw [doReadAtLoop_cons_next f off chunk (l1 ++ l2) st st2 (hnext.trans hs),
          doReadAtLoop_cons_next f off chunk l1 st st2 hs]
      exact doReadAtLoop_append f off l1 l2 st2
    | errStop st2 e2 =>
      rw [doReadAtLoop_cons_err f off chunk (l1 ++ l2) st st2 e2 (hnext.trans hs),
          doReadAtLoop_cons_err f off chunk l1 st st2 e2 hs]
    | fault =>
      rw [doReadAtLoop_cons_fault f off chunk (l1 ++ l2) st (hnext.trans hs),
          doReadAtLoop_cons_fault f off chunk l1 st hs]


/-- C1 (code_bug evidence): on a file of size 4 whose single view covers
`[2,4)`, a read of `[0,4)` into a buffer previously holding `9`s counts the two
gap bytes `[0,2)` in `bytesWritten` (`n = 4`) but leaves those buffer
positions at their stale value `9`: the gap is never written with zero bytes,
contradicting the zero-fill the spec requires. -/
theorem C1_gap_bytes_counted_but_not_written :
    doReadAt (fun s => if s = "f" then Except.ok [7, 8] else Except.error "no")
      (NewChunkReaderAtFromClient [⟨"f", 0, 2, 2, 2⟩] (some []) 4) [9, 9, 9, 9] 0 =
    some { p := [9, 9, 7, 8], n := 4, err := some ReadErr.eof,
           c := { chunkViews := [⟨"f", 0, 2, 2, 2⟩], fileSize := 4,
                  lastChunkFileId := "f", lastChunkData := [7, 8],
                  chunkCache := some [("f", [7, 8])], vidCache := [] },
           coordCalls := 1 } := by
  decide

/-- C7 (code_bug evidence): a reader with no chunk views and size `S = 3`.
A read of `[0,3)` returns `n = 3` with end-of-file, and a read starting at
offset `3` returns `n = 0` with end-of-file — but the 3 "zero bytes" of the
first read are never written: the buffer keeps its stale `5`s, so the call
does not return `S` zero bytes as the spec requires. -/
theorem C7_zero_chunk_file_counts_but_does_not_write :
    (doReadAt (fun _ => Except.error "no")
        (NewChunkReaderAtFromClient [] (some []) 3) [5, 5, 5] 0 =
      some { p := [5, 5, 5], n := 3, err := some ReadErr.eof,
             c := NewChunkReaderAtFromClient [] (some []) 3,
             coordCalls := 0 }) ∧
    (doReadAt (fun _ => Except.error "no")
        (NewChunkReaderAtFromClient [] (some []) 3) [5, 5] 3 =
      some { p := [5, 5], n := 0, err := some ReadErr.eof,
             c := NewChunkReaderAtFromClient [] (some []) 3,
             coordCalls := 0 }) := by
  constructor <;> decide

/-- C10: with no content cache configured (`chunkCache = none`), the recency
slot is the only safe path: `readOneWholeChunk` dereferences the nil cache
unconditionally and faults, so any `readFromWholeChunkData` that misses the
recency slot faults, while a slot hit returns the remembered bytes; the
read-ahead launch never happens (its nil-cache guard, and the fault before it,
keep `spawned` empty). -/
theorem C10_nil_cache_unsafe_off_recency_slot
    (fetchChunk : String → Except String Bytes) (c : ChunkReadAt)
    (v : ChunkView) (next : Option ChunkView) (hnil : c.chunkCache = none) :
    readOneWholeChunk fetchChunk c v = (.nilCacheFault, c) ∧
    (c.lastChunkFileId ≠ v.FileId →
      readFromWholeChunkData fetchChunk c v next = (.nilCacheFault, c, 1, [])) ∧
    (c.lastChunkFileId = v.FileId →
      readFromWholeChunkData fetchChunk c v next = (.ok c.lastChunkData, c, 0, [])) := by
  have h1 : readOneWholeChunk fetchChunk c v = (.nilCacheFault, c) := by
    unfold readOneWholeChunk
    rw [hnil]
  refine ⟨h1, ?_, ?_⟩
  · intro hne
    unfold readFromWholeChunkData
    rw [if_neg hne, h1]
  · intro heq
    unfold readFromWholeChunkData
    rw [if_pos heq]

/-- Witness for C10 at a concrete no-cache reader whose slot does not hold the
requested chunk: the synchronous fetch path faults. -/
theorem C10_witness :
    readOneWholeChunk (fun _ => Except.ok [1])
        (NewChunkReaderAtFromClient [⟨"f", 0, 2, 2, 2⟩] none 4) ⟨"f", 0, 2, 2, 2⟩ =
      (.nilCacheFault, NewChunkReaderAtFromClient [⟨"f", 0, 2, 2, 2⟩] none 4) ∧
    readFromWholeChunkData (fun _ => Except.ok [1])
        (NewChunkReaderAtFromClient [⟨"f", 0, 2, 2, 2⟩] none 4) ⟨"f", 0, 2, 2, 2⟩ none =
      (.nilCacheFault, NewChunkReaderAtFromClient [⟨"f", 0, 2, 2, 2⟩] none 4, 1, []) := by
  have h := C10_nil_cache_unsafe_off_recency_slot (fun _ => Except.ok [1])
    (NewChunkReaderAtFromClient [⟨"f", 0, 2, 2, 2⟩] none 4) ⟨"f", 0, 2, 2, 2⟩ none rfl
  exact ⟨h.1, h.2.1 (by decide)⟩


/-- C4: a `readAt`/`doReadAt` call that returns (no panic) reports end-of-file
exactly when the walk produced no resolve/fetch error and
`offset + len(buffer) >= fileSize`; since the error slot is a single value,
end-of-file is never reported together with a fetch error, and `n` is reported
alongside in the same call. -/
theorem C4_eof_iff_no_error_and_window_reaches_size
    (f : String → Except String Bytes) (c : ChunkReadAt) (p : Bytes)
    (offset : Int) (r : ReadResult) (h : doReadAt f c p offset = some r) :
    r.err = some ReadErr.eof ↔
      isFetchFail r.err = false ∧ c.fileSize ≤ offset + (p.length : Int) := by
  unfold doReadAt at h
  cases hl : doReadAtLoop f offset c.chunkViews (initLoopState c p offset) with
  | none =>
    rw [hl] at h
    cases h
  | some x =>
    obtain ⟨st, e?⟩ := x
    have hfs : st.c.fileSize = c.fileSize :=
      (doReadAtLoop_pres f offset c.chunkViews (initLoopState c p offset) st e? hl).1
    rw [hl] at h
    cases e? with
    | some e =>
      dsimp only at h
      cases h
      simp [isFetchFail]
    | none =>
      dsimp only at h
      cases h
      dsimp only
      rw [hfs]
      by_cases hc : c.fileSize ≤ offset + (p.length : Int)
      · simp [hc, isFetchFail]
      · simp [hc, isFetchFail]

/-- Witness for C4: a concrete call where end-of-file is reported together
with a positive `bytesWritten` (`n = 2`), and the characterisation holds. -/
theorem C4_witness :
    (doReadAt (fun _ => Except.error "no") (NewChunkReaderAtFromClient [] (some []) 2) [1, 1] 0 =
      some { p := [1, 1], n := 2, err := some ReadErr.eof,
             c := NewChunkReaderAtFromClient [] (some []) 2, coordCalls := 0 }) ∧
    (({ p := [1, 1], n := 2, err := some ReadErr.eof,
        c := NewChunkReaderAtFromClient [] (some []) 2, coordCalls := 0 } : ReadResult).err =
        some ReadErr.eof ↔
      isFetchFail ({ p := [1, 1], n := 2, err := some ReadErr.eof,
                     c := NewChunkReaderAtFromClient [] (some []) 2,
                     coordCalls := 0 } : ReadResult).err = false ∧
      (NewChunkReaderAtFromClient [] (some []) 2).fileSize ≤ 0 + (([1, 1] : Bytes).length : Int)) :=
  ⟨by decide,
   C4_eof_iff_no_error_and_window_reaches_size (fun _ => Except.error "no")
     (NewChunkReaderAtFromClient [] (some []) 2) [1, 1] 0 _ (by decide)⟩


theorem gapAdjust_fields (chunk : ChunkView) (st : LoopState) :
    (gapAdjust chunk st).p = st.p ∧ (gapAdjust chunk st).c = st.c ∧
    (gapAdjust chunk st).coordCalls = st.coordCalls := by
  unfold gapAdjust
  split <;> exact ⟨rfl, rfl, rfl⟩

/-- C3: if, after the walk has consumed a leading group of views `pre` without
error (final cursor `st`), the fetch of the next view `v` fails, then the
whole `doReadAt` call stops at once and reports that error together with
`bytesWritten` equal to everything accumulated so far: `st.n` (earlier gap
fills and successfully fetched views) plus the zero-fill counted for the gap
directly before `v`; the buffer keeps the bytes already copied (`st.p`). -/
theorem C3_fetch_error_preserves_partial_result
    (f : String → Except String Bytes) (c : ChunkReadAt) (p : Bytes) (offset : Int)
    (pre : List ChunkView) (v : ChunkView) (post : List ChunkView)
    (st : LoopState) (e : String) (c' : ChunkReadAt) (k : Nat) (sp : List String)
    (hviews : c.chunkViews = pre ++ v :: post)
    (hpre : doReadAtLoop f offset pre (initLoopState c p offset) = some (st, none))
    (hrem : 0 < st.remaining)
    (hrem1 : 0 < (gapAdjust v st).remaining)
    (hint : max v.LogicOffset (gapAdjust v st).startOffset <
            min (v.LogicOffset + (v.Size : Int))
              ((gapAdjust v st).startOffset + (gapAdjust v st).remaining))
    (hfail : readFromWholeChunkData f (gapAdjust v st).c v post.head? = (.fail e, c', k, sp)) :
    (doReadAt f c p offset =
      some { p := st.p, n := (gapAdjust v st).n, err := some (.fetchFail e),
             c := c', coordCalls := st.coordCalls + k }) ∧
    (gapAdjust v st).n = st.n +
      (if st.startOffset < v.LogicOffset
       then min (v.LogicOffset - st.startOffset) st.remaining else 0) := by
  obtain ⟨hp, hc, hk⟩ := gapAdjust_fields v st
  constructor
  · have hstep : loopStep f offset v post.head? st =
        .errStop ({ gapAdjust v st with c := c', coordCalls := (gapAdjust v st).coordCalls + k }) e := by
      unfold loopStep
      simp only [if_neg (not_le.mpr hrem), if_neg (not_le.mpr hrem1),
        if_neg (not_le.mpr hint)]
      rw [hfail]
    have hloop : doReadAtLoop f offset (pre ++ v :: post) (initLoopState c p offset) =
        some ({ gapAdjust v st with c := c', coordCalls := (gapAdjust v st).coordCalls + k }, some e) := by
      rw [doReadAtLoop_append f offset pre (v :: post) (initLoopState c p offset), hpre]
      exact doReadAtLoop_cons_err f offset v post st _ e hstep
    unfold doReadAt
    rw [hviews, hloop]
    dsimp only
    rw [hp, hk]
  · by_cases hgap : st.startOffset < v.LogicOffset
    · simp [gapAdjust, hgap]
    · simp [gapAdjust, hgap]

/-- Witness for C3, the spec's partial-failure scenario in miniature: views
`[0,2)` (chunk a, fetchable) and `[4,6)` (chunk b, failing), file size 6, read
window `[1,5)`: one byte of chunk a is copied, the two gap bytes `[2,4)` are
counted, then the fetch of b fails; the call reports `n = 3` with the fetch
error and the buffer keeps the copied byte. -/
theorem C3_witness :
    doReadAt (fun s => if s = "a" then Except.ok [1, 2] else Except.error "boom")
      (NewChunkReaderAtFromClient [⟨"a", 0, 2, 0, 2⟩, ⟨"b", 0, 2, 4, 2⟩] (some []) 6)
      [9, 9, 9, 9] 1 =
    some { p := [2, 9, 9, 9], n := 3, err := some (.fetchFail "boom"),
           c := { chunkViews := [⟨"a", 0, 2, 0, 2⟩, ⟨"b", 0, 2, 4, 2⟩], fileSize := 6,
                  lastChunkFileId := "a", lastChunkData := [1, 2],
                  chunkCache := some [("a", [1, 2])], vidCache := [] },
           coordCalls := 2 } := by
  have h := C3_fetch_error_preserves_partial_result
    (fun s => if s = "a" then Except.ok [1, 2] else Except.error "boom")
    (NewChunkReaderAtFromClient [⟨"a", 0, 2, 0, 2⟩, ⟨"b", 0, 2, 4, 2⟩] (some []) 6)
    [9, 9, 9, 9] 1 [⟨"a", 0, 2, 0, 2⟩] ⟨"b", 0, 2, 4, 2⟩ []
    { p := [2, 9, 9, 9], n := 1, startOffset := 2, remaining := 3,
      c := { chunkViews := [⟨"a", 0, 2, 0, 2⟩, ⟨"b", 0, 2, 4, 2⟩], fileSize := 6,
             lastChunkFileId := "a", lastChunkData := [1, 2],
             chunkCache := some [("a", [1, 2])], vidCache := [] },
      coordCalls := 1 }
    "boom"
    { chunkViews := [⟨"a", 0, 2, 0, 2⟩, ⟨"b", 0, 2, 4, 2⟩], fileSize := 6,
      lastChunkFileId := "a", lastChunkData := [1, 2],
      chunkCache := some [("a", [1, 2])], vidCache := [] }
    1 [] rfl (by decide) (by decide) (by decide) (by decide) (by decide)
  exact h.1.trans (by decide)


theorem assocGet_cons {α : Type} (k k' : String) (x : α) (l : List (String × α)) :
    assocGet ((k, x) :: l) k' = if k = k' then some x else assocGet l k' := by
  by_cases h : k = k'
  · simp [assocGet, List.find?, h]
  · have hb : (k == k') = false := beq_eq_false_iff_ne.mpr h
    simp [assocGet, List.find?, hb, h]

/-- C5 counterexample: the volume-location cache is not shared between reader
instances.  A first reader resolves volume `7,x` successfully (one remote
lookup, its own cache now populated); a second reader constructed by
`NewChunkReaderAtFromClient` carries a brand-new empty cache (`LookupFn`
allocates a fresh map per construction), so its resolve of the same volume
performs the remote lookup again (`true`) instead of being answered from the
cache (`false`) as the claim predicts. -/
theorem C5_counterexample_cache_not_shared_between_readers :
    (lookupFileId ⟨fun s => s, fun s => s, fun _ => .ok ["n1"]⟩ [] "7,x" [] =
      (.ok ["http://n1/7,x"], [("7,x", ["n1"])], true)) ∧
    (NewChunkReaderAtFromClient [] (some []) 0).vidCache = [] ∧
    (lookupFileId ⟨fun s => s, fun s => s, fun _ => .ok ["n1"]⟩
      (NewChunkReaderAtFromClient [] (some []) 0).vidCache "7,x" []).2.2 = true := by
  refine ⟨?_, rfl, ?_⟩ <;> rfl

/-- C5 amended: the volume-location cache is per lookup-function instance (one
fresh map per `NewChunkReaderAtFromClient`), not process-wide.  Within one
instance the claim's persistence does hold: no lookup ever removes or changes
an existing cache entry, and once a resolve of `fileId` succeeds, every later
resolve of any `fileId'` of the same volume through the same instance is
answered from the cache without performing a remote lookup. -/
theorem C5_amended_per_reader_cache_persistent (fc : FilerClient)
    (cache cache' : List (String × List String)) (fileId : String)
    (cs : List Nat) (res : Except String (List String)) (b : Bool)
    (h : lookupFileId fc cache fileId cs = (res, cache', b)) :
    (∀ v l, assocGet cache v = some l → assocGet cache' v = some l) ∧
    (∀ urls, res = .ok urls → ∀ fileId' cs', fc.VolumeId fileId' = fc.VolumeId fileId →
      ∃ l', assocGet cache' (fc.VolumeId fileId') = some l' ∧
        lookupFileId fc cache' fileId' cs' =
          (.ok (fySwaps (mkTargetUrls fc fileId' l') cs'), cache', false)) := by
  unfold lookupFileId at h
  dsimp only at h
  cases hg : assocGet cache (fc.VolumeId fileId) with
  | some locs =>
    rw [hg] at h
    dsimp only at h
    injection h with h1 h'
    injection h' with h2 h3
    subst h1
    subst h2
    constructor
    · intro v l hv
      exact hv
    · intro urls hres fileId' cs' hvid
      refine ⟨locs, ?_, ?_⟩
      · rw [hvid]
        exact hg
      · unfold lookupFileId
        dsimp only
        rw [hvid, hg]
  | none =>
    rw [hg] at h
    cases hr : fc.lookupVolume (fc.VolumeId fileId) with
    | error e =>
      rw [hr] at h
      dsimp only at h
      injection h with h1 h'
      injection h' with h2 h3
      subst h1
      subst h2
      exact ⟨fun v l hv => hv, fun urls hres => by cases hres⟩
    | ok locs =>
      rw [hr] at h
      dsimp only at h
      by_cases hlen : locs.length = 0
      · rw [if_pos hlen] at h
        injection h with h1 h'
        injection h' with h2 h3
        subst h1
        subst h2
        exact ⟨fun v l hv => hv, fun urls hres => by cases hres⟩
      · rw [if_neg hlen] at h
        injection h with h1 h'
        injection h' with h2 h3
        subst h1
        subst h2
        constructor
        · intro v l hv
          rw [assocGet_cons]
          split
          · rename_i hvv
            rw [hvv] at hg
            rw [hg] at hv
            cases hv
          · exact hv
        · intro urls hres fileId' cs' hvid
          have hhit : assocGet ((fc.VolumeId fileId, locs) :: cache) (fc.VolumeId fileId') =
              some locs := by
            rw [assocGet_cons, if_pos hvid.symm]
          refine ⟨locs, hhit, ?_⟩
          unfold lookupFileId
          dsimp only
          rw [hhit]


/-- Witness for the amended C5: after one successful (remote) resolve of
volume `7,x` through a reader's lookup function, a second resolve of the same
volume through the same function is answered from the cache: same URLs,
unchanged cache, and no remote lookup (`false`). -/
theorem C5_witness :
    lookupFileId ⟨fun s => s, fun s => s, fun _ => .ok ["n1"]⟩ [("7,x", ["n1"])] "7,x" [] =
      (.ok ["http://n1/7,x"], [("7,x", ["n1"])], false) := by
  obtain ⟨h1, h2⟩ := C5_amended_per_reader_cache_persistent
    ⟨fun s => s, fun s => s, fun _ => .ok ["n1"]⟩ [] [("7,x", ["n1"])] "7,x" []
    (.ok ["http://n1/7,x"]) true rfl
  obtain ⟨l', hl', heq⟩ := h2 ["http://n1/7,x"] rfl "7,x" [] rfl
  have hll : l' = ["n1"] := by
    have hx : assocGet [("7,x", ["n1"])] "7,x" = some ["n1"] := rfl
    rw [hx] at hl'
    injection hl' with hh
    exact hh.symm
  subst hll
  exact heq


/-! ### Fisher-Yates shuffle: permutation and uniformity machinery -/

theorem listSwap_length {α : Type} (l : List α) (i j : Nat) :
    (listSwap l i j).length = l.length := by
  unfold listSwap
  split <;> simp

theorem set_get_self {α : Type} (l : List α) (i : Nat) (h : i < l.length) :
    l.set i (l.get ⟨i, h⟩) = l := by
  apply List.ext_getElem (by simp)
  intro k h1 h2
  by_cases hk : i = k
  · subst hk
    simp
  · rw [List.getElem_set_ne hk]

theorem get_cons_set_perm {α : Type} :
    ∀ (t : List α) (k : Nat) (h : k < t.length) (a : α),
      (t.get ⟨k, h⟩ :: t.set k a).Perm (a :: t)
  | x :: t, 0, _, a => List.Perm.swap a x t
  | x :: t, k + 1, h, a => by
    have hk : k < t.length := by
      simp only [List.length_cons] at h
      omega
    show (t.get ⟨k, hk⟩ :: x :: t.set k a).Perm (a :: x :: t)
    exact (List.Perm.swap x (t.get ⟨k, hk⟩) (t.set k a)).trans
      ((List.Perm.cons x (get_cons_set_perm t k hk a)).trans (List.Perm.swap a x t))

theorem listSwap_comm {α : Type} (l : List α) (i j : Nat) :
    listSwap l i j = listSwap l j i := by
  unfold listSwap
  by_cases hij : i < l.length ∧ j < l.length
  · rw [dif_pos hij, dif_pos ⟨hij.2, hij.1⟩]
    by_cases he : i = j
    · subst he
      rfl
    · exact List.set_comm _ _ l he
  · rw [dif_neg hij, dif_neg (fun hji => hij ⟨hji.2, hji.1⟩)]

theorem listSwap_perm {α : Type} : ∀ (l : List α) (i j : Nat), (listSwap l i j).Perm l
  | [], i, j => by
    unfold listSwap
    rw [dif_neg (by simp)]
  | x :: t, 0, 0 => by
    unfold listSwap
    rw [dif_pos ⟨by simp, by simp⟩, List.set_set, set_get_self (x :: t) 0 (by simp)]
  | x :: t, 0, j + 1 => by
    by_cases hj : j < t.length
    · unfold listSwap
      rw [dif_pos ⟨by simp, by simp only [List.length_cons]; omega⟩]
      show ((t.get ⟨j, hj⟩ :: t).set (j + 1) x).Perm (x :: t)
      show (t.get ⟨j, hj⟩ :: t.set j x).Perm (x :: t)
      exact get_cons_set_perm t j hj x
    · unfold listSwap
      rw [dif_neg (by simp only [List.length_cons, not_and]; intro h1 h2; omega)]
  | x :: t, i + 1, 0 => by
    rw [listSwap_comm]
    exact listSwap_perm (x :: t) 0 (i + 1)
  | x :: t, i + 1, j + 1 => by
    by_cases hij : i < t.length ∧ j < t.length
    · unfold listSwap
      rw [dif_pos ⟨by simp only [List.length_cons]; omega, by simp only [List.length_cons]; omega⟩]
      show (x :: (t.set i (t.get ⟨j, hij.2⟩)).set j (t.get ⟨i, hij.1⟩)).Perm (x :: t)
      apply List.Perm.cons
      have hp := listSwap_perm t i j
      unfold listSwap at hp
      rwa [dif_pos hij] at hp
    · unfold listSwap
      rw [dif_neg (by simp only [List.length_cons, not_and]; intro h1 h2; omega)]

theorem fySwaps_perm {α : Type} : ∀ (cs : List Nat) (l : List α), (fySwaps l cs).Perm l
  | [], l => List.Perm.refl l
  | j :: rest, l =>
    (fySwaps_perm rest (listSwap l (rest.length + 1) j)).trans (listSwap_perm l _ j)

theorem fySwaps_length {α : Type} (cs : List Nat) (l : List α) :
    (fySwaps l cs).length = l.length :=
  (fySwaps_perm cs l).length_eq


theorem listSwap_append {α : Type} (l1 l2 : List α) (i j : Nat)
    (hi : i < l1.length) (hj : j < l1.length) :
    listSwap (l1 ++ l2) i j = listSwap l1 i j ++ l2 := by
  unfold listSwap
  have hi' : i < (l1 ++ l2).length := by
    simp only [List.length_append]
    omega
  have hj' : j < (l1 ++ l2).length := by
    simp only [List.length_append]
    omega
  rw [dif_pos ⟨hi', hj'⟩, dif_pos ⟨hi, hj⟩]
  simp only [List.get_eq_getElem]
  rw [List.getElem_append_left hj, List.getElem_append_left hi,
      List.set_append_left _ _ hi]
  rw [List.set_append_left _ _ (by rw [List.length_set]; exact hj)]

theorem listSwap_get_last {α : Type} (l : List α) (i j : Nat)
    (hi : i < l.length) (hj : j < l.length) (h' : i < (listSwap l i j).length) :
    (listSwap l i j).get ⟨i, h'⟩ = l.get ⟨j, hj⟩ := by
  unfold listSwap
  simp only [List.get_eq_getElem]
  rw [List.getElem_of_eq (by rw [dif_pos ⟨hi, hj⟩]) _]
  by_cases he : j = i
  · subst he
    simp
  · rw [List.getElem_set_ne he, List.getElem_set_self]

theorem fySwaps_append {α : Type} :
    ∀ (cs : List Nat) (l1 l2 : List α), FYValid cs → cs.length < l1.length →
      fySwaps (l1 ++ l2) cs = fySwaps l1 cs ++ l2
  | [], l1, l2, _, _ => rfl
  | j :: rest, l1, l2, hval, hlt => by
    have hi : rest.length + 1 < l1.length := by
      simp only [List.length_cons] at hlt
      omega
    have hj : j < l1.length := by
      have := hval.1
      omega
    show fySwaps (listSwap (l1 ++ l2) (rest.length + 1) j) rest = _
    rw [listSwap_append l1 l2 (rest.length + 1) j hi hj]
    have := fySwaps_append rest (listSwap l1 (rest.length + 1) j) l2 hval.2
      (by rw [listSwap_length]; omega)
    rw [this]
    rfl

theorem fySwaps_cons_decompose {α : Type} (l : List α) (j : Nat) (rest : List Nat)
    (hval : FYValid (j :: rest)) (hlen : l.length = rest.length + 2) (hj : j < l.length) :
    fySwaps l (j :: rest) =
      fySwaps ((listSwap l (rest.length + 1) j).take (rest.length + 1)) rest ++
        [l.get ⟨j, hj⟩] := by
  have hi : rest.length + 1 < l.length := by omega
  have hml : (listSwap l (rest.length + 1) j).length = l.length := listSwap_length l _ j
  have hii : rest.length + 1 < (listSwap l (rest.length + 1) j).length := by omega
  have hsplit : listSwap l (rest.length + 1) j =
      (listSwap l (rest.length + 1) j).take (rest.length + 1) ++
        [(listSwap l (rest.length + 1) j).get ⟨rest.length + 1, hii⟩] := by
    have h1 := List.take_concat_get' (listSwap l (rest.length + 1) j) (rest.length + 1) hii
    have h2 : (listSwap l (rest.length + 1) j).take (rest.length + 1 + 1) =
        listSwap l (rest.length + 1) j := List.take_of_length_le (by omega)
    simp only [List.get_eq_getElem]
    rw [h1, h2]
  have hgi : (listSwap l (rest.length + 1) j).get ⟨rest.length + 1, hii⟩ = l.get ⟨j, hj⟩ :=
    listSwap_get_last l (rest.length + 1) j hi hj hii
  show fySwaps (listSwap l (rest.length + 1) j) rest = _
  rw [← hgi]
  conv_lhs => rw [hsplit]
  apply fySwaps_append rest _ _ hval.2
  rw [List.length_take]
  omega


theorem fySwaps_inj {α : Type} :
    ∀ (cs1 cs2 : List Nat) (l : List α), l.Nodup → FYValid cs1 → FYValid cs2 →
      cs1.length + 1 = l.length → cs2.length + 1 = l.length →
      fySwaps l cs1 = fySwaps l cs2 → cs1 = cs2
  | [], [], _, _, _, _, _, _, _ => rfl
  | [], _ :: r2, l, _, _, _, h1, h2, _ => by
    exfalso
    simp only [List.length_nil, List.length_cons] at h1 h2
    omega
  | _ :: r1, [], l, _, _, _, h1, h2, _ => by
    exfalso
    simp only [List.length_nil, List.length_cons] at h1 h2
    omega
  | j1 :: r1, j2 :: r2, l, hnd, hv1, hv2, h1, h2, heq => by
    have hr : r1.length = r2.length := by
      simp only [List.length_cons] at h1 h2
      omega
    have hlen : l.length = r1.length + 2 := by
      simp only [List.length_cons] at h1
      omega
    have hj1 : j1 < l.length := by
      have := hv1.1
      omega
    have hj2 : j2 < l.length := by
      have := hv2.1
      omega
    rw [fySwaps_cons_decompose l j1 r1 hv1 hlen hj1,
        fySwaps_cons_decompose l j2 r2 hv2 (by omega) hj2] at heq
    have hlenA : (fySwaps ((listSwap l (r1.length + 1) j1).take (r1.length + 1)) r1).length =
        (fySwaps ((listSwap l (r2.length + 1) j2).take (r2.length + 1)) r2).length := by
      rw [fySwaps_length, fySwaps_length, List.length_take, List.length_take,
          listSwap_length, listSwap_length]
      omega
    obtain ⟨hA, hx⟩ := List.append_inj heq hlenA
    have hxx : l.get ⟨j1, hj1⟩ = l.get ⟨j2, hj2⟩ := by
      simpa using hx
    have hjj : j1 = j2 := congrArg Fin.val ((List.Nodup.get_inj_iff hnd).mp hxx)
    subst hjj
    rw [← hr] at hA
    have hndm : ((listSwap l (r1.length + 1) j1).take (r1.length + 1)).Nodup :=
      (List.take_sublist _ _).nodup ((listSwap_perm l (r1.length + 1) j1).nodup_iff.mpr hnd)
    have hrec := fySwaps_inj r1 r2 ((listSwap l (r1.length + 1) j1).take (r1.length + 1))
      hndm hv1.2 hv2.2
      (by rw [List.length_take, listSwap_length]; omega)
      (by rw [List.length_take, listSwap_length]; omega)
      hA
    rw [hrec]

theorem fySwaps_surj {α : Type} :
    ∀ (n : Nat) (l out : List α), l.length = n + 1 → out.Perm l →
      ∃ cs, FYValid cs ∧ cs.length = n ∧ fySwaps l cs = out
  | 0, l, out, hlen, hperm => by
    obtain ⟨x, rfl⟩ := List.length_eq_one.mp hlen
    have hout : out = [x] := List.perm_singleton.mp hperm
    exact ⟨[], trivial, rfl, by rw [hout]; rfl⟩
  | n + 1, l, out, hlen, hperm => by
    have hlout : out.length = n + 2 := by rw [hperm.length_eq, hlen]
    have hne : out ≠ [] := by
      intro h
      rw [h] at hlout
      simp at hlout
    have hz : out.getLast hne ∈ l := hperm.mem_iff.mp (List.getLast_mem hne)
    obtain ⟨⟨j, hj⟩, hgz⟩ := List.mem_iff_get.mp hz
    have hi : n + 1 < l.length := by omega
    have hii : n + 1 < (listSwap l (n + 1) j).length := by
      rw [listSwap_length]
      omega
    have hml : ((listSwap l (n + 1) j).take (n + 1)).length = n + 1 := by
      rw [List.length_take, listSwap_length]
      omega
    have hsplit : listSwap l (n + 1) j =
        (listSwap l (n + 1) j).take (n + 1) ++ [out.getLast hne] := by
      have h1 := List.take_concat_get' (listSwap l (n + 1) j) (n + 1) hii
      have h2 : (listSwap l (n + 1) j).take (n + 1 + 1) = listSwap l (n + 1) j :=
        List.take_of_length_le (by rw [listSwap_length]; omega)
      have h3 := listSwap_get_last l (n + 1) j hi hj hii
      rw [← hgz, ← h3]
      simp only [List.get_eq_getElem] at h1 ⊢
      rw [h1, h2]
    have hperm2 : ((listSwap l (n + 1) j).take (n + 1) ++ [out.getLast hne]).Perm
        (out.dropLast ++ [out.getLast hne]) := by
      rw [← hsplit, List.dropLast_append_getLast hne]
      exact (listSwap_perm l (n + 1) j).trans hperm.symm
    have hperm3 : ((listSwap l (n + 1) j).take (n + 1)).Perm out.dropLast :=
      (List.perm_append_right_iff [out.getLast hne]).mp hperm2
    obtain ⟨cs', hval', hlen', heq'⟩ := fySwaps_surj n ((listSwap l (n + 1) j).take (n + 1))
      out.dropLast (by rw [hml]) hperm3.symm
    have hjv : j ≤ cs'.length + 1 := by omega
    refine ⟨j :: cs', ⟨hjv, hval'⟩, by simp [hlen'], ?_⟩
    have hdec := fySwaps_cons_decompose l j cs' ⟨hjv, hval'⟩
      (by rw [hlen']; omega) (by omega)
    rw [← hlen'] at heq'
    rw [hdec, heq', hgz, List.dropLast_append_getLast hne]


/-- C8: on success, `LookupFn` returns exactly one URL
`http://<adjusted-address>/<fileId>` per resolved location — the output is a
permutation of the per-location URL list, nothing added, dropped or
duplicated — and its order is a uniform random permutation: the Fisher-Yates
loop, fed the draws `cs` of `rand.Intn(i+1)` (each uniform and independent),
maps the valid draw vectors of length `n-1` bijectively (injectively, and onto
all permutations) to the reorderings of the URL list, so every permutation is
produced by exactly one equiprobable draw vector. -/
theorem C8_lookup_urls_permuted_uniformly (fc : FilerClient) (fileId : String) :
    (∀ (cache : List (String × List String)) (cs : List Nat)
        (res : Except String (List String)) (cache' : List (String × List String))
        (b : Bool) (urls : List String),
      lookupFileId fc cache fileId cs = (res, cache', b) → res = .ok urls →
      ∃ locs, (assocGet cache (fc.VolumeId fileId) = some locs ∨
               fc.lookupVolume (fc.VolumeId fileId) = .ok locs) ∧
        urls = fySwaps (mkTargetUrls fc fileId locs) cs ∧
        urls.Perm (locs.map (fun loc => "http://" ++ fc.AdjustedUrl loc ++ "/" ++ fileId))) ∧
    (∀ (locs : List String) (cs1 cs2 : List Nat),
      (mkTargetUrls fc fileId locs).Nodup → FYValid cs1 → FYValid cs2 →
      cs1.length + 1 = locs.length → cs2.length + 1 = locs.length →
      fySwaps (mkTargetUrls fc fileId locs) cs1 = fySwaps (mkTargetUrls fc fileId locs) cs2 →
      cs1 = cs2) ∧
    (∀ (locs out : List String) (nn : Nat), locs.length = nn + 1 →
      out.Perm (mkTargetUrls fc fileId locs) →
      ∃ cs, FYValid cs ∧ cs.length = nn ∧
        fySwaps (mkTargetUrls fc fileId locs) cs = out) := by
  have hmt : ∀ locs : List String, (mkTargetUrls fc fileId locs).length = locs.length := by
    intro locs
    unfold mkTargetUrls
    exact List.length_map ..
  refine ⟨?_, ?_, ?_⟩
  · intro cache cs res cache' b urls h hres
    unfold lookupFileId at h
    dsimp only at h
    cases hg : assocGet cache (fc.VolumeId fileId) with
    | some locs =>
      rw [hg] at h
      dsimp only at h
      injection h with h1 h'
      subst h1
      refine ⟨locs, Or.inl rfl, ?_, ?_⟩
      · injection hres with h2
        exact h2.symm
      · injection hres with h2
        rw [← h2]
        exact (fySwaps_perm cs (mkTargetUrls fc fileId locs)).trans (List.Perm.refl _)
    | none =>
      rw [hg] at h
      cases hr : fc.lookupVolume (fc.VolumeId fileId) with
      | error e =>
        rw [hr] at h
        dsimp only at h
        injection h with h1 h'
        subst h1
        cases hres
      | ok locs =>
        rw [hr] at h
        dsimp only at h
        by_cases hlen : locs.length = 0
        · rw [if_pos hlen] at h
          injection h with h1 h'
          subst h1
          cases hres
        · rw [if_neg hlen] at h
          injection h with h1 h'
          subst h1
          refine ⟨locs, Or.inr rfl, ?_, ?_⟩
          · injection hres with h2
            exact h2.symm
          · injection hres with h2
            rw [← h2]
            exact fySwaps_perm cs (mkTargetUrls fc fileId locs)
  · intro locs cs1 cs2 hnd hv1 hv2 hl1 hl2 heq
    exact fySwaps_inj cs1 cs2 (mkTargetUrls fc fileId locs) hnd hv1 hv2
      (by rw [hmt locs]; exact hl1) (by rw [hmt locs]; exact hl2) heq
  · intro locs out nn hlen hperm
    exact fySwaps_surj nn (mkTargetUrls fc fileId locs) out (by rw [hmt locs, hlen]) hperm

/-- Witness for C8: a concrete successful lookup of volume `f` with two
locations; the returned list is the per-location URL list (one URL each, in
permuted order), and a draw vector returning the other ordering exists. -/
theorem C8_witness :
    (∃ locs, (assocGet ([] : List (String × List String)) "f" = some locs ∨
        (Except.ok ["n1", "n2"] : Except String (List String)) = .ok locs) ∧
      ["http://n1/f", "http://n2/f"] =
        fySwaps (mkTargetUrls ⟨fun s => s, fun s => s, fun _ => .ok ["n1", "n2"]⟩ "f" locs) [1] ∧
      List.Perm ["http://n1/f", "http://n2/f"]
        (locs.map (fun loc => "http://" ++ loc ++ "/" ++ "f"))) ∧
    (∃ cs, FYValid cs ∧ cs.length = 1 ∧
      fySwaps (mkTargetUrls ⟨fun s => s, fun s => s, fun _ => .ok ["n1", "n2"]⟩ "f"
        ["n1", "n2"]) cs = ["http://n2/f", "http://n1/f"]) := by
  constructor
  · exact (C8_lookup_urls_permuted_uniformly
      ⟨fun s => s, fun s => s, fun _ => .ok ["n1", "n2"]⟩ "f").1
      [] [1] (.ok ["http://n1/f", "http://n2/f"]) [("f", ["n1", "n2"])] true
      ["http://n1/f", "http://n2/f"] rfl rfl
  · exact (C8_lookup_urls_permuted_uniformly
      ⟨fun s => s, fun s => s, fun _ => .ok ["n1", "n2"]⟩ "f").2.2
      ["n1", "n2"] ["http://n2/f", "http://n1/f"] 1 rfl (by decide)


/-! ### Walk safety and recency-slot machinery -/

theorem readFromWholeChunkData_cases (f : String → Except String Bytes)
    (c : ChunkReadAt) (v : ChunkView) (next : Option ChunkView)
    (hcs : c.chunkCache.isSome) :
    (∃ e c' k sp, readFromWholeChunkData f c v next = (.fail e, c', k, sp) ∧
      c' = c ∧ k = 1 ∧ f v.FileId = .error e) ∨
    (∃ d c' k sp, readFromWholeChunkData f c v next = (.ok d, c', k, sp) ∧
      c'.lastChunkFileId = v.FileId ∧ c'.lastChunkData = d ∧ k ≤ 1 ∧
      (c.lastChunkFileId = v.FileId → k = 0 ∧ c' = c) ∧
      (SourceAdequate f c v → v.Offset + (v.Size : Int) ≤ (d.length : Int)) ∧
      (∀ w, SourceAdequate f c w → SourceAdequate f c' w) ∧
      c'.chunkCache.isSome) := by
  obtain ⟨cc, hcc⟩ := Option.isSome_iff_exists.mp hcs
  rcases hres : readFromWholeChunkData f c v next with ⟨res, c', k, sp⟩
  unfold readFromWholeChunkData at hres
  by_cases hslot : c.lastChunkFileId = v.FileId
  · rw [if_pos hslot] at hres
    injection hres with h1 h'
    injection h' with h2 h''
    injection h'' with h3 h4
    subst h1
    subst h2
    subst h3
    right
    exact ⟨c.lastChunkData, c, 0, sp, rfl, hslot, rfl, by omega,
      fun _ => ⟨rfl, rfl⟩, fun hsa => hsa.1 hslot, fun w hw => hw, hcs⟩
  · rw [if_neg hslot] at hres
    cases hg : assocGet cc v.FileId with
    | some d =>
      have hone : readOneWholeChunk f c v = (.ok d, c) := by
        unfold readOneWholeChunk
        rw [hcc]
        dsimp only
        rw [hg]
      rw [hone] at hres
      dsimp only at hres
      injection hres with h1 h'
      injection h' with h2 h''
      injection h'' with h3 h4
      subst h1
      subst h2
      subst h3
      right
      refine ⟨d, _, 1, sp, rfl, rfl, rfl, le_refl 1, fun h => absurd h hslot,
        fun hsa => hsa.2.1 cc hcc d hg, ?_, hcs⟩
      intro w hw
      refine ⟨?_, ?_, hw.2.2⟩
      · intro hwf
        exact hw.2.1 cc hcc d (by rw [← hwf]; exact hg)
      · intro cc' hcc' d' hd'
        have hcc2 : some cc = some cc' := by
          rw [← hcc]
          exact hcc'
        injection hcc2 with hcc3
        subst hcc3
        exact hw.2.1 cc hcc d' hd'
    | none =>
      cases hf : f v.FileId with
      | error e =>
        have hone : readOneWholeChunk f c v = (.fail e, c) := by
          unfold readOneWholeChunk
          rw [hcc]
          dsimp only
          rw [hg]
          dsimp only
          unfold doFetchFullChunkData
          rw [hf]
        rw [hone] at hres
        dsimp only at hres
        injection hres with h1 h'
        injection h' with h2 h''
        injection h'' with h3 h4
        subst h1
        subst h2
        subst h3
        left
        exact ⟨e, c, 1, sp, rfl, rfl, rfl, rfl⟩
      | ok dv =>
        have hone : readOneWholeChunk f c v =
            (.ok dv, { c with chunkCache := some ((v.FileId, dv) :: cc) }) := by
          unfold readOneWholeChunk
          rw [hcc]
          dsimp only
          rw [hg]
          dsimp only
          unfold doFetchFullChunkData
          rw [hf]
        rw [hone] at hres
        dsimp only at hres
        injection hres with h1 h'
        injection h' with h2 h''
        injection h'' with h3 h4
        subst h1
        subst h2
        subst h3
        right
        refine ⟨dv, _, 1, sp, rfl, rfl, rfl, le_refl 1, fun h => absurd h hslot,
          fun hsa => hsa.2.2 dv hf, ?_, rfl⟩
        intro w hw
        refine ⟨?_, ?_, hw.2.2⟩
        · intro hwf
          exact hw.2.2 dv (by rw [← hwf]; exact hf)
        · intro cc' hcc' d' hd'
          have hcc2 : some ((v.FileId, dv) :: cc) = some cc' := hcc'
          injection hcc2 with hcc3
          subst hcc3
          rw [assocGet_cons] at hd'
          by_cases hvw : v.FileId = w.FileId
          · rw [if_pos hvw] at hd'
            injection hd' with h
            subst h
            exact hw.2.2 dv (by rw [← hvw]; exact hf)
          · rw [if_neg hvw] at hd'
            exact hw.2.1 cc hcc d' hd'


theorem loopStep_skip (f : String → Except String Bytes) (off : Int) (u : ChunkView)
    (next : Option ChunkView) (st : LoopState) (hrem : 0 < st.remaining)
    (hu : u.LogicOffset + (u.Size : Int) ≤ st.startOffset) :
    loopStep f off u next st = .next st := by
  have hsz : (0 : Int) ≤ (u.Size : Int) := Int.natCast_nonneg u.Size
  have hng : ¬ st.startOffset < u.LogicOffset := by omega
  have hga : gapAdjust u st = st := by
    unfold gapAdjust
    rw [if_neg hng]
  have hns : min (u.LogicOffset + (u.Size : Int)) (st.startOffset + st.remaining) ≤
      max u.LogicOffset st.startOffset :=
    le_trans (min_le_left _ _) (le_trans hu (le_max_right _ _))
  simp only [loopStep, if_neg (not_le.mpr hrem), hga, if_pos hns]

theorem doReadAtLoop_skip (f : String → Except String Bytes) (off : Int) :
    ∀ (pre rest : List ChunkView) (st : LoopState), 0 < st.remaining →
      (∀ u ∈ pre, u.LogicOffset + (u.Size : Int) ≤ st.startOffset) →
      doReadAtLoop f off (pre ++ rest) st = doReadAtLoop f off rest st
  | [], rest, st, _, _ => rfl
  | u :: pre, rest, st, hrem, hb => by
    have hstep : loopStep f off u (pre ++ rest).head? st = .next st :=
      loopStep_skip f off u _ st hrem (hb u (by simp))
    rw [show (u :: pre) ++ rest = u :: (pre ++ rest) from rfl,
        doReadAtLoop_cons_next f off u (pre ++ rest) st st hstep]
    exact doReadAtLoop_skip f off pre rest st hrem (fun w hw => hb w (by simp [hw]))

theorem viewsOrdered_bound :
    ∀ (pre : List ChunkView) (v : ChunkView) (post : List ChunkView),
      ViewsOrdered (pre ++ v :: post) →
      ∀ u ∈ pre, u.LogicOffset + (u.Size : Int) ≤ v.LogicOffset
  | [], _, _, _, u, hu => absurd hu (List.not_mem_nil u)
  | u0 :: pre, v, post, hord, u, hu => by
    have hord' := (List.chain'_cons'.mp hord)
    have htail : ViewsOrdered (pre ++ v :: post) := hord'.2
    cases List.mem_cons.mp hu with
    | inl he =>
      subst he
      cases pre with
      | nil =>
        exact hord'.1 v rfl
      | cons u1 pre' =>
        have h01 : u.LogicOffset + (u.Size : Int) ≤ u1.LogicOffset := hord'.1 u1 rfl
        have h1v : u1.LogicOffset + (u1.Size : Int) ≤ v.LogicOffset :=
          viewsOrdered_bound (u1 :: pre') v post htail u1 (by simp)
        have hsz : (0 : Int) ≤ (u1.Size : Int) := Int.natCast_nonneg u1.Size
        omega
    | inr hm =>
      exact viewsOrdered_bound pre v post htail u hm

theorem loopStep_inside (f : String → Except String Bytes) (off : Int) (v : ChunkView)
    (next : Option ChunkView) (st : LoopState) (dv : Bytes)
    (hrem : 0 < st.remaining)
    (hlo : v.LogicOffset ≤ st.startOffset)
    (hhi : st.startOffset + st.remaining ≤ v.LogicOffset + (v.Size : Int))
    (hcur : st.startOffset - off = st.n)
    (hn0 : 0 ≤ st.n)
    (hlen : st.n + st.remaining = (st.p.length : Int))
    (hoff : 0 ≤ v.Offset)
    (hcs : st.c.chunkCache.isSome)
    (hfa : f v.FileId = .ok dv)
    (hsa : SourceAdequate f st.c v) :
    ∃ st', loopStep f off v next st = .next st' ∧ st'.remaining = 0 ∧
      st'.c.lastChunkFileId = v.FileId ∧
      v.Offset + (v.Size : Int) ≤ (st'.c.lastChunkData.length : Int) ∧
      st'.coordCalls ≤ st.coordCalls + 1 ∧
      (st.c.lastChunkFileId = v.FileId → st'.coordCalls = st.coordCalls) ∧
      st'.c.chunkCache.isSome ∧
      (∀ w, SourceAdequate f st.c w → SourceAdequate f st'.c w) := by
  have hng : ¬ st.startOffset < v.LogicOffset := not_lt.mpr hlo
  have hga : gapAdjust v st = st := by
    unfold gapAdjust
    rw [if_neg hng]
  rcases readFromWholeChunkData_cases f st.c v next hcs with
    ⟨e, c', k, sp, hr, hceq, hk, hfe⟩ |
    ⟨d, c', k, sp, hr, hslot', hdata, hk, hhit, hade, hpres, hcs'⟩
  · rw [hfa] at hfe
    cases hfe
  · have hD : v.Offset + (v.Size : Int) ≤ (d.length : Int) := hade hsa
    have hns : ¬ min (v.LogicOffset + (v.Size : Int)) (st.startOffset + st.remaining) ≤
        max v.LogicOffset st.startOffset := by
      rw [max_eq_right hlo, min_eq_right hhi]
      omega
    have hbnd : sliceOK (st.startOffset - off)
        (min (v.LogicOffset + (v.Size : Int)) (st.startOffset + st.remaining) -
          max v.LogicOffset st.startOffset + st.startOffset - off) st.p.length ∧
        sliceOK (max v.LogicOffset st.startOffset - v.LogicOffset + v.Offset)
          (max v.LogicOffset st.startOffset - v.LogicOffset + v.Offset +
            min (v.LogicOffset + (v.Size : Int)) (st.startOffset + st.remaining) -
            max v.LogicOffset st.startOffset) d.length := by
      rw [max_eq_right hlo, min_eq_right hhi]
      constructor <;> unfold sliceOK <;> omega
    simp only [loopStep, if_neg (not_le.mpr hrem), hga, hr, if_neg hns, if_pos hbnd]
    refine ⟨_, rfl, ?_, ?_, ?_, ?_, ?_, ?_, ?_⟩
    · dsimp only
      rw [max_eq_right hlo, min_eq_right hhi]
      omega
    · dsimp only
      rw [hslot']
    · dsimp only
      rw [hdata]
      exact hD
    · dsimp only
      omega
    · intro hsl
      dsimp only
      rw [(hhit hsl).1]
      omega
    · dsimp only
      exact hcs'
    · dsimp only
      exact hpres


theorem doReadAt_inside (f : String → Except String Bytes) (c : ChunkReadAt)
    (p : Bytes) (off : Int) (pre : List ChunkView) (v : ChunkView)
    (post : List ChunkView) (dv : Bytes)
    (hviews : c.chunkViews = pre ++ v :: post)
    (hord : ViewsOrdered c.chunkViews)
    (hp : 0 < p.length)
    (hwa : v.LogicOffset ≤ off)
    (hwb : off + (p.length : Int) ≤ v.LogicOffset + (v.Size : Int))
    (hoff : 0 ≤ v.Offset)
    (hcs : c.chunkCache.isSome)
    (hfa : f v.FileId = .ok dv)
    (hsa : SourceAdequate f c v) :
    ∃ r, doReadAt f c p off = some r ∧
      r.coordCalls ≤ 1 ∧
      (c.lastChunkFileId = v.FileId → r.coordCalls = 0) ∧
      r.c.lastChunkFileId = v.FileId ∧
      v.Offset + (v.Size : Int) ≤ (r.c.lastChunkData.length : Int) ∧
      r.c.chunkCache.isSome ∧
      r.c.chunkViews = c.chunkViews ∧
      SourceAdequate f r.c v := by
  have hrem0 : 0 < (initLoopState c p off).remaining := by
    show (0 : Int) < (p.length : Int)
    exact_mod_cast hp
  have hskip : ∀ u ∈ pre, u.LogicOffset + (u.Size : Int) ≤ (initLoopState c p off).startOffset := by
    intro u hu
    have := viewsOrdered_bound pre v post (hviews ▸ hord) u hu
    unfold initLoopState
    dsimp only
    omega
  obtain ⟨st', hstep, hrem', hslot', hdata', hcoord', hhit', hcs', hpres'⟩ :=
    loopStep_inside f off v post.head? (initLoopState c p off) dv hrem0 hwa
      (by unfold initLoopState; dsimp only; omega)
      (by unfold initLoopState; dsimp only; omega)
      (by unfold initLoopState; dsimp only; omega)
      (by unfold initLoopState; dsimp only; omega)
      hoff hcs hfa hsa
  have hloop : doReadAtLoop f off c.chunkViews (initLoopState c p off) = some (st', none) := by
    rw [hviews, doReadAtLoop_skip f off pre (v :: post) (initLoopState c p off) hrem0 hskip,
        doReadAtLoop_cons_next f off v post (initLoopState c p off) st' hstep]
    exact doReadAtLoop_nonpos f off post st' (by omega)
  have hchv : st'.c.chunkViews = c.chunkViews :=
    (doReadAtLoop_pres f off c.chunkViews (initLoopState c p off) st' none hloop).2.1
  have hno : ¬ (0 < st'.remaining ∧ st'.startOffset < st'.c.fileSize) := by
    intro hcon
    rw [hrem'] at hcon
    exact lt_irrefl 0 hcon.1
  unfold doReadAt
  rw [hloop]
  dsimp only
  rw [if_neg hno]
  exact ⟨_, rfl, hcoord', fun h => hhit' h, hslot', hdata', hcs', hchv, hpres' v hsa⟩

/-- C6: two sequential reads on one reader whose windows both lie inside the
byte range of the same chunk view make at most one Fetch Coordinator call in
total; the second call is served entirely from the single-chunk recency slot
(zero coordinator calls), and the recency slot is overwritten with
`(chunkId, bytes)` whenever a chunk different from the slot's is successfully
fetched. -/
theorem C6_recency_slot_short_circuit (f : String → Except String Bytes)
    (c0 : ChunkReadAt) (p1 p2 : Bytes) (off1 off2 : Int)
    (pre : List ChunkView) (v : ChunkView) (post : List ChunkView) (dv : Bytes)
    (hviews : c0.chunkViews = pre ++ v :: post)
    (hord : ViewsOrdered c0.chunkViews)
    (hp1 : 0 < p1.length) (hp2 : 0 < p2.length)
    (hw1a : v.LogicOffset ≤ off1)
    (hw1b : off1 + (p1.length : Int) ≤ v.LogicOffset + (v.Size : Int))
    (hw2a : v.LogicOffset ≤ off2)
    (hw2b : off2 + (p2.length : Int) ≤ v.LogicOffset + (v.Size : Int))
    (hoff : 0 ≤ v.Offset)
    (hcs : c0.chunkCache.isSome)
    (hfa : f v.FileId = .ok dv)
    (hsa : SourceAdequate f c0 v) :
    (∃ r1 r2, ReadAt f c0 p1 off1 = some r1 ∧ ReadAt f r1.c p2 off2 = some r2 ∧
      r1.coordCalls + r2.coordCalls ≤ 1 ∧ r2.coordCalls = 0 ∧
      r2.c.lastChunkFileId = v.FileId) ∧
    (∀ (c2 : ChunkReadAt) (cv : ChunkView) (next : Option ChunkView) (d : Bytes)
        (c2' : ChunkReadAt) (k : Nat) (sp : List String),
      c2.lastChunkFileId ≠ cv.FileId →
      readFromWholeChunkData f c2 cv next = (.ok d, c2', k, sp) →
      c2'.lastChunkFileId = cv.FileId ∧ c2'.lastChunkData = d) := by
  constructor
  · obtain ⟨r1, hr1, hc1, hhit1, hslot1, hdata1, hcs1, hchv1, hsa1⟩ :=
      doReadAt_inside f c0 p1 off1 pre v post dv hviews hord hp1 hw1a hw1b hoff hcs hfa hsa
    obtain ⟨r2, hr2, hc2, hhit2, hslot2, hdata2, hcs2, hchv2, hsa2⟩ :=
      doReadAt_inside f r1.c p2 off2 pre v post dv (by rw [hchv1, hviews])
        (by rw [hchv1]; exact hord) hp2 hw2a hw2b hoff hcs1 hfa hsa1
    exact ⟨r1, r2, hr1, hr2, by have := hhit2 hslot1; omega, hhit2 hslot1, hslot2⟩
  · intro c2 cv next d c2' k sp hne h
    unfold readFromWholeChunkData at h
    rw [if_neg hne] at h
    rcases hone : readOneWholeChunk f c2 cv with ⟨res, cm⟩
    rw [hone] at h
    cases res with
    | nilCacheFault =>
      dsimp only at h
      injection h with h1 _
      cases h1
    | fail e =>
      dsimp only at h
      injection h with h1 _
      cases h1
    | ok data =>
      dsimp only at h
      injection h with h1 h'
      injection h' with h2 h''
      injection h1 with hd
      subst hd
      subst h2
      exact ⟨rfl, rfl⟩


/-- Witness for C6: one view `[0,4)` of chunk `a`; a read of `[1,3)` then a
read of `[2,3)` on the same reader: the two calls make at most one coordinator
call in total and the second makes none; the slot-overwrite conjunct applied
at the first call's fetch. -/
theorem C6_witness :
    (∃ r1 r2, ReadAt (fun s => if s = "a" then Except.ok [1, 2, 3, 4] else Except.error "no")
        (NewChunkReaderAtFromClient [⟨"a", 0, 4, 0, 4⟩] (some []) 4) [9, 9] 1 = some r1 ∧
      ReadAt (fun s => if s = "a" then Except.ok [1, 2, 3, 4] else Except.error "no")
        r1.c [9] 2 = some r2 ∧
      r1.coordCalls + r2.coordCalls ≤ 1 ∧ r2.coordCalls = 0 ∧
      r2.c.lastChunkFileId = "a") ∧
    (({ chunkViews := [⟨"a", 0, 4, 0, 4⟩], fileSize := 4, lastChunkFileId := "a",
          lastChunkData := [1, 2, 3, 4], chunkCache := some [("a", [1, 2, 3, 4])],
          vidCache := [] } : ChunkReadAt).lastChunkFileId = "a" ∧
      ({ chunkViews := [⟨"a", 0, 4, 0, 4⟩], fileSize := 4, lastChunkFileId := "a",
          lastChunkData := [1, 2, 3, 4], chunkCache := some [("a", [1, 2, 3, 4])],
          vidCache := [] } : ChunkReadAt).lastChunkData = [1, 2, 3, 4]) := by
  have hsa : SourceAdequate (fun s => if s = "a" then Except.ok [1, 2, 3, 4] else Except.error "no")
      (NewChunkReaderAtFromClient [⟨"a", 0, 4, 0, 4⟩] (some []) 4) ⟨"a", 0, 4, 0, 4⟩ := by
    refine ⟨fun h => absurd h (by decide), ?_, ?_⟩
    · intro cc hcc d hd
      injection hcc with h
      subst h
      cases hd
    · intro d hd
      have : ([1, 2, 3, 4] : Bytes) = d := by
        injection hd
      rw [← this]
      decide
  have h := C6_recency_slot_short_circuit
    (fun s => if s = "a" then Except.ok [1, 2, 3, 4] else Except.error "no")
    (NewChunkReaderAtFromClient [⟨"a", 0, 4, 0, 4⟩] (some []) 4)
    [9, 9] [9] 1 2 [] ⟨"a", 0, 4, 0, 4⟩ [] [1, 2, 3, 4]
    rfl (by exact List.Chain.nil) (by decide) (by decide) (by decide) (by decide)
    (by decide) (by decide) (by decide) rfl rfl hsa
  refine ⟨h.1, h.2 (NewChunkReaderAtFromClient [⟨"a", 0, 4, 0, 4⟩] (some []) 4)
    ⟨"a", 0, 4, 0, 4⟩ none [1, 2, 3, 4]
    ({ chunkViews := [⟨"a", 0, 4, 0, 4⟩], fileSize := 4, lastChunkFileId := "a",
        lastChunkData := [1, 2, 3, 4], chunkCache := some [("a", [1, 2, 3, 4])],
        vidCache := [] } : ChunkReadAt)
    1 [] (by decide) (by decide)⟩


theorem gapAdjust_startOffset_ge (v : ChunkView) (st : LoopState) :
    v.LogicOffset ≤ (gapAdjust v st).startOffset := by
  unfold gapAdjust
  split
  · exact le_refl _
  · rename_i h
    exact not_lt.mp h

theorem gapAdjust_inv (off : Int) (p0 : Nat) (v : ChunkView) (st : LoopState)
    (hInv : WalkInv off p0 st) (hrem : 0 < st.remaining) :
    WalkInv off p0 (gapAdjust v st) := by
  obtain ⟨hn0, hnp, hplen, hcond⟩ := hInv
  obtain ⟨hsum, hcur⟩ := hcond hrem
  unfold gapAdjust
  split
  · rename_i hg
    have hm1 : min (v.LogicOffset - st.startOffset) st.remaining ≤ st.remaining :=
      min_le_right ..
    have hm2 : min (v.LogicOffset - st.startOffset) st.remaining ≤
        v.LogicOffset - st.startOffset := min_le_left ..
    have hm3 : (0 : Int) ≤ min (v.LogicOffset - st.startOffset) st.remaining :=
      le_min (by omega) (by omega)
    refine ⟨by dsimp only; omega, by dsimp only; omega, hplen, ?_⟩
    intro hrem1
    dsimp only at hrem1 ⊢
    have hmeq : min (v.LogicOffset - st.startOffset) st.remaining =
        v.LogicOffset - st.startOffset := min_eq_left (by omega)
    constructor
    · omega
    · omega
  · exact ⟨hn0, hnp, hplen, hcond⟩

theorem loopStep_safety (f : String → Except String Bytes) (off : Int) (v : ChunkView)
    (next : Option ChunkView) (st : LoopState) (p0 : Nat)
    (hInv : WalkInv off p0 st) (hoff : 0 ≤ v.Offset)
    (hcs : st.c.chunkCache.isSome) (hsa : SourceAdequate f st.c v) :
    (∃ st', (loopStep f off v next st = .brk st' ∨ loopStep f off v next st = .next st') ∧
      WalkInv off p0 st' ∧ st'.c.chunkCache.isSome ∧
      (∀ w, SourceAdequate f st.c w → SourceAdequate f st'.c w)) ∨
    (∃ st' e, loopStep f off v next st = .errStop st' e ∧ 0 ≤ st'.n ∧ st'.n ≤ (p0 : Int)) := by
  by_cases h1 : st.remaining ≤ 0
  · left
    refine ⟨st, Or.inl ?_, hInv, hcs, fun w hw => hw⟩
    unfold loopStep
    rw [if_pos h1]
  · have hrem : 0 < st.remaining := lt_of_not_le h1
    have hInv1 := gapAdjust_inv off p0 v st hInv hrem
    have hlo1 := gapAdjust_startOffset_ge v st
    have hc1 : (gapAdjust v st).c = st.c := (gapAdjust_fields v st).2.1
    by_cases h2 : (gapAdjust v st).remaining ≤ 0
    · left
      refine ⟨gapAdjust v st, Or.inl ?_, hInv1, by rw [hc1]; exact hcs,
        fun w hw => by rw [hc1]; exact hw⟩
      simp only [loopStep, if_neg h1, if_pos h2]
    · have hrem1 : 0 < (gapAdjust v st).remaining := lt_of_not_le h2
      obtain ⟨hsum1, hcur1⟩ := hInv1.2.2.2 hrem1
      have hn01 : 0 ≤ (gapAdjust v st).n := hInv1.1
      have hplen1 : (gapAdjust v st).p.length = p0 := hInv1.2.2.1
      by_cases h3 : min (v.LogicOffset + (v.Size : Int))
          ((gapAdjust v st).startOffset + (gapAdjust v st).remaining) ≤
          max v.LogicOffset (gapAdjust v st).startOffset
      · left
        refine ⟨gapAdjust v st, Or.inr ?_, hInv1, by rw [hc1]; exact hcs,
          fun w hw => by rw [hc1]; exact hw⟩
        simp only [loopStep, if_neg h1, if_neg h2, if_pos h3]
      · rcases readFromWholeChunkData_cases f (gapAdjust v st).c v next
            (by rw [hc1]; exact hcs) with
          ⟨e, c', k, sp, hr, hceq, hk, hfe⟩ |
          ⟨d, c', k, sp, hr, hslot', hdata, hk, hhit, hade, hpres, hcs'⟩
        · right
          refine ⟨{ gapAdjust v st with c := c', coordCalls := (gapAdjust v st).coordCalls + k }, e, ?_, hn01, hInv1.2.1⟩
          simp only [loopStep, if_neg h1, if_neg h2, if_neg h3, hr]
        · left
          have hD : v.Offset + (v.Size : Int) ≤ (d.length : Int) :=
            hade (by rw [hc1]; exact hsa)
          have hmax : max v.LogicOffset (gapAdjust v st).startOffset =
              (gapAdjust v st).startOffset := max_eq_right hlo1
          have hminl := min_le_left (v.LogicOffset + (v.Size : Int))
            ((gapAdjust v st).startOffset + (gapAdjust v st).remaining)
          have hminr := min_le_right (v.LogicOffset + (v.Size : Int))
            ((gapAdjust v st).startOffset + (gapAdjust v st).remaining)
          have hgt : max v.LogicOffset (gapAdjust v st).startOffset <
              min (v.LogicOffset + (v.Size : Int))
                ((gapAdjust v st).startOffset + (gapAdjust v st).remaining) :=
            lt_of_not_le h3
          rw [hmax] at hgt
          have hbnd : sliceOK ((gapAdjust v st).startOffset - off)
              (min (v.LogicOffset + (v.Size : Int))
                ((gapAdjust v st).startOffset + (gapAdjust v st).remaining) -
                max v.LogicOffset (gapAdjust v st).startOffset +
                (gapAdjust v st).startOffset - off) (gapAdjust v st).p.length ∧
              sliceOK (max v.LogicOffset (gapAdjust v st).startOffset - v.LogicOffset + v.Offset)
                (max v.LogicOffset (gapAdjust v st).startOffset - v.LogicOffset + v.Offset +
                  min (v.LogicOffset + (v.Size : Int))
                    ((gapAdjust v st).startOffset + (gapAdjust v st).remaining) -
                  max v.LogicOffset (gapAdjust v st).startOffset) d.length := by
            rw [hmax, hplen1]
            constructor <;> unfold sliceOK <;> omega
          simp only [loopStep, if_neg h1, if_neg h2, if_neg h3, hr, if_pos hbnd]
          refine ⟨_, Or.inr rfl, ?_, hcs', fun w hw => hpres w (by rw [hc1]; exact hw)⟩
          have hseg : ((d.drop (max v.LogicOffset (gapAdjust v st).startOffset -
              v.LogicOffset + v.Offset).toNat).take
              (min (v.LogicOffset + (v.Size : Int))
                ((gapAdjust v st).startOffset + (gapAdjust v st).remaining) -
               max v.LogicOffset (gapAdjust v st).startOffset).toNat).length =
              (min (v.LogicOffset + (v.Size : Int))
                ((gapAdjust v st).startOffset + (gapAdjust v st).remaining) -
               max v.LogicOffset (gapAdjust v st).startOffset).toNat := by
            simp only [List.length_take, List.length_drop]
            rw [hmax]
            omega
          refine ⟨?_, ?_, ?_, ?_⟩
          · dsimp only
            rw [hmax]
            omega
          · dsimp only
            rw [hmax]
            omega
          · dsimp only
            rw [copyInto_length _ _ _ ?_, hplen1]
            rw [hseg, hplen1, hmax]
            omega
          · intro hrem2
            dsimp only at hrem2 ⊢
            rw [hmax] at hrem2
            constructor
            · rw [hmax]
              omega
            · rw [hmax]
              omega

theorem doReadAtLoop_safety (f : String → Except String Bytes) (off : Int) (p0 : Nat) :
    ∀ (vs : List ChunkView) (st : LoopState), WalkInv off p0 st →
      st.c.chunkCache.isSome → (∀ v ∈ vs, 0 ≤ v.Offset) →
      SourcesAdequate f st.c vs →
      ∃ st' e, doReadAtLoop f off vs st = some (st', e) ∧
        0 ≤ st'.n ∧ st'.n ≤ (p0 : Int) ∧ (e = none → WalkInv off p0 st')
  | [], st, hInv, _, _, _ => ⟨st, none, rfl, hInv.1, hInv.2.1, fun _ => hInv⟩
  | v :: rest, st, hInv, hcs, hoffs, hsas => by
    rcases loopStep_safety f off v rest.head? st p0 hInv (hoffs v (by simp)) hcs
        (hsas v (by simp)) with
      ⟨st1, hstep, hInv1, hcs1, hpres1⟩ | ⟨st1, e, hstep, hb1, hb2⟩
    · cases hstep with
      | inl hbrk =>
        exact ⟨st1, none, doReadAtLoop_cons_brk f off v rest st st1 hbrk,
          hInv1.1, hInv1.2.1, fun _ => hInv1⟩
      | inr hnext =>
        have hsas1 : SourcesAdequate f st1.c rest :=
          fun w hw => hpres1 w (hsas w (List.mem_cons_of_mem v hw))
        obtain ⟨st', e, hloop, hb1, hb2, hb3⟩ :=
          doReadAtLoop_safety f off p0 rest st1 hInv1 hcs1
            (fun w hw => hoffs w (List.mem_cons_of_mem v hw)) hsas1
        exact ⟨st', e, by rw [doReadAtLoop_cons_next f off v rest st st1 hnext]; exact hloop,
          hb1, hb2, hb3⟩
    · exact ⟨st1, some e, doReadAtLoop_cons_err f off v rest st st1 e hstep, hb1, hb2,
        fun h => by cases h⟩


/-- C9: for `doReadAt` over ordered, non-overlapping views with non-negative
in-chunk offsets, a configured cache, and every obtainable whole-chunk byte
string at least `Offset + Size` long, the call returns (no slice panic) with
`0 ≤ n ≤ len(p)`; the adequacy precondition is necessary: at a concrete input
whose fetch returns fewer than `Offset + Size` bytes, the source slice of the
copy is out of range and the call panics (`none`). -/
theorem C9_count_bounds_and_slice_safety :
    (∀ (f : String → Except String Bytes) (c : ChunkReadAt) (p : Bytes) (offset : Int),
      ViewsOrdered c.chunkViews →
      (∀ v ∈ c.chunkViews, 0 ≤ v.Offset) →
      c.chunkCache.isSome →
      SourcesAdequate f c c.chunkViews →
      ∃ r, doReadAt f c p offset = some r ∧ 0 ≤ r.n ∧ r.n ≤ (p.length : Int)) ∧
    doReadAt (fun _ => Except.ok [7])
      (NewChunkReaderAtFromClient [⟨"f", 0, 2, 0, 2⟩] (some []) 2) [0, 0] 0 = none := by
  constructor
  · intro f c p offset hord hoffs hcs hsas
    have hInv0 : WalkInv offset p.length (initLoopState c p offset) := by
      refine ⟨le_refl 0, ?_, rfl, ?_⟩
      · show (0 : Int) ≤ (p.length : Int)
        exact Int.natCast_nonneg _
      · intro h
        constructor
        · show (0 : Int) + (p.length : Int) = (p.length : Int)
          ring
        · show offset - offset = (0 : Int)
          ring
    obtain ⟨st', e, hloop, hb1, hb2, hb3⟩ :=
      doReadAtLoop_safety f offset p.length c.chunkViews (initLoopState c p offset)
        hInv0 hcs hoffs hsas
    unfold doReadAt
    rw [hloop]
    cases e with
    | some e =>
      exact ⟨_, rfl, hb1, hb2⟩
    | none =>
      dsimp only
      by_cases hc2 : 0 < st'.remaining ∧ st'.startOffset < st'.c.fileSize
      · rw [if_pos hc2]
        obtain ⟨hsum, hcur⟩ := (hb3 rfl).2.2.2 hc2.1
        have hm1 : min st'.remaining (st'.c.fileSize - st'.startOffset) ≤ st'.remaining :=
          min_le_left ..
        have hm0 : (0 : Int) ≤ min st'.remaining (st'.c.fileSize - st'.startOffset) :=
          le_min (le_of_lt hc2.1) (by omega)
        exact ⟨_, rfl, by dsimp only; omega, by dsimp only; omega⟩
      · rw [if_neg hc2]
        exact ⟨_, rfl, hb1, hb2⟩
  · decide

/-- Witness for C9 at a concrete safe configuration (view `[1,3)` of a chunk
with two bytes, file size 4, read `[0,3)`): the call returns with
`0 ≤ n ≤ 3`. -/
theorem C9_witness :
    ∃ r, doReadAt (fun s => if s = "g" then Except.ok [7, 8] else Except.error "no")
        (NewChunkReaderAtFromClient [⟨"g", 0, 2, 1, 2⟩] (some []) 4) [9, 9, 9] 0 = some r ∧
      0 ≤ r.n ∧ r.n ≤ (([9, 9, 9] : Bytes).length : Int) := by
  refine C9_count_bounds_and_slice_safety.1
    (fun s => if s = "g" then Except.ok [7, 8] else Except.error "no")
    (NewChunkReaderAtFromClient [⟨"g", 0, 2, 1, 2⟩] (some []) 4) [9, 9, 9] 0
    (by exact List.Chain.nil) (by decide) rfl ?_
  intro w hw
  have hwv : w = ⟨"g", 0, 2, 1, 2⟩ := List.mem_singleton.mp hw
  subst hwv
  refine ⟨fun h => absurd h (by decide), ?_, ?_⟩
  · intro cc hcc d hd
    injection hcc with h
    subst h
    cases hd
  · intro d hd
    have : ([7, 8] : Bytes) = d := by
      injection hd
    rw [← this]
    decide

end ReaderAt

